import Mathlib

/-!
Verification development for the Measurement-Sheets backend (src/server.js).

The development shallowly embeds the record-normalization routine
`ensureAndSortRecords` (src/server.js:52-85) together with the request
handlers that the claims mention.  JavaScript numbers that arise from
`parseInt(·, 10)` are modelled as exact integers plus a NaN sentinel;
`String(·)` on numbers follows the ECMAScript rendering, including the
switch to exponential notation at magnitude 10^21, which is what breaks
the parse-render round trip on large values (the rounding of parses
beyond 2^53 to the nearest double is outside the model; the model and
the program agree on exactly representable values such as the powers of
ten used below).  The sort comparator
`String(a.id).localeCompare(String(b.id))` depends on the collation of
the JavaScript environment (Node's default ICU collation is not
code-point order: it puts "a" before "B"), so order-sensitive claims
are proved for an arbitrary admissible collation — any total preorder
on strings — via the comparator-parameterized copy of the routine
below; the concrete executable instance `ensureAndSortRecords` fixes
code-point order, which the remaining claims do not depend on.  The
stable ECMAScript `Array.prototype.sort` is modelled by the stable
insertion sort from Mathlib; `uuidv4()` is modelled as a fresh-name
supply threaded through the computation as a `Nat` counter (like a real
UUID, each generated identifier is a non-empty string).
-/

/-- A JavaScript number as produced by `parseInt(v, 10)`: an integer or
the NaN sentinel. -/
inductive JSNum : Type where
| int (n : Int) : JSNum
| nan : JSNum
deriving DecidableEq, Repr

/-- A JavaScript value that can sit in a record's `sn` field before
coercion: a number, a string, a boolean or null.  (`undefined` is
modelled by `Option.none` at the field level, matching the
`record.sn !== undefined` guard in the source.) -/
inductive SNVal : Type where
| num (j : JSNum) : SNVal
| str (s : String) : SNVal
| boolv (b : Bool) : SNVal
| nullv : SNVal
deriving DecidableEq, Repr

/-- The character for a decimal digit value. -/
def digitToChar (d : Nat) : Char := Char.ofNat (48 + d)

/-- The decimal digit value of a character. -/
def charDigitVal (c : Char) : Nat := c.toNat - 48

/-- ASCII decimal digit test. -/
def isDigitCh (c : Char) : Bool := decide (48 ≤ c.toNat) && decide (c.toNat ≤ 57)

/-- Whitespace skipped by JavaScript `parseInt` (common whitespace
characters). -/
def isSpaceCh (c : Char) : Bool := c == ' ' || c == '\t' || c == '\n' || c == '\r'

/-- Accumulate a big-endian list of decimal digit values into a number. -/
def digitsToNat (ds : List Nat) : Nat := ds.foldl (fun a d => 10 * a + d) 0

/-- Parse the leading run of decimal digits; an empty run yields NaN
(JavaScript `parseInt` semantics). -/
def parseDigits (cs : List Char) (neg : Bool) : JSNum :=
  let ds := cs.takeWhile isDigitCh
  if ds.isEmpty then JSNum.nan
  else
    let v : Nat := digitsToNat (ds.map charDigitVal)
    JSNum.int (if neg then -(v : Int) else (v : Int))

/-- JavaScript `parseInt(·, 10)` on a character list: skip leading
whitespace, read an optional sign, then the leading digit run. -/
def parseIntChars (cs : List Char) : JSNum :=
  match cs.dropWhile isSpaceCh with
  | [] => JSNum.nan
  | c :: rest =>
    if c == '-' then parseDigits rest true
    else if c == '+' then parseDigits rest false
    else parseDigits (c :: rest) false

/-- JavaScript `parseInt(s, 10)` on a string. -/
def parseIntStr (s : String) : JSNum := parseIntChars s.data

/-- Little-endian decimal digits of a natural number, computed with a
structural fuel argument (the fuel `n` itself always suffices). -/
def decDigitsRevAux : Nat → Nat → List Nat
| 0, _ => []
| _ + 1, 0 => []
| f + 1, n + 1 => ((n + 1) % 10) :: decDigitsRevAux f ((n + 1) / 10)

/-- Little-endian decimal digits of a natural number (equal to
`Nat.digits 10`, but kernel-evaluable). -/
def decDigitsRev (n : Nat) : List Nat := decDigitsRevAux n n

/-- Decimal rendering of a natural number (character list). -/
def natToDecChars (n : Nat) : List Char :=
  if n = 0 then ['0'] else ((decDigitsRev n).map digitToChar).reverse

/-- The ECMAScript exponential rendering "d.ddd…e+k" of an integer of
magnitude at least 10^21 (trailing zeros of the mantissa are dropped,
and the decimal point is omitted when no mantissa digits remain, so
10^22 renders as "1e+22"). -/
def expCharsOf (m : Nat) : List Char :=
  match (decDigitsRev m).reverse with
  | [] => ['0']
  | d :: rest =>
    let restTrimmed := (rest.reverse.dropWhile (fun d2 => d2 == 0)).reverse
    digitToChar d ::
      ((if restTrimmed.isEmpty then [] else '.' :: restTrimmed.map digitToChar) ++
        ('e' :: '+' :: natToDecChars ((decDigitsRev m).length - 1)))

/-- JavaScript `String(·)` on a number: integers of magnitude below
10^21 render in plain decimal, larger magnitudes switch to exponential
notation (ECMAScript Number::toString), and NaN renders as "NaN". -/
def jsNumToString : JSNum → String
| JSNum.int n =>
  if n.natAbs < 10 ^ 21 then
    if n < 0 then String.mk ('-' :: natToDecChars n.natAbs)
    else String.mk (natToDecChars n.natAbs)
  else
    if n < 0 then String.mk ('-' :: expCharsOf n.natAbs)
    else String.mk (expCharsOf n.natAbs)
| JSNum.nan => "NaN"

/-- Whether a number survives the `String` round trip: NaN, or an
integer of magnitude below the exponential-rendering threshold 10^21. -/
def jsNumBounded : JSNum → Bool
| JSNum.int n => decide (n.natAbs < 10 ^ 21)
| JSNum.nan => true

/-- `jsNumBounded` for an optional `sn` value (non-numbers trivially
count as bounded; after coercion `sn` is always a number). -/
def snValBounded : Option SNVal → Bool
| some (SNVal.num j) => jsNumBounded j
| _ => true

/-- JavaScript `String(·)` on an `sn` value. -/
def jsToString : SNVal → String
| SNVal.num j => jsNumToString j
| SNVal.str s => s
| SNVal.boolv b => if b then "true" else "false"
| SNVal.nullv => "null"

/-- JavaScript `parseInt(v, 10)` on an arbitrary value: the argument is
first converted to a string. -/
def jsParseInt (v : SNVal) : JSNum := parseIntStr (jsToString v)

/-- A record in a project's record tree.  `id` is the (optional string)
identifier, `sn` the optional sequence-number field (any JavaScript
value), `subRecords` the optional nested array of records, and
`payload` stands for all other domain fields, which the routine passes
through untouched (a non-array `subRecords` value is likewise passed
through untouched and is modelled as part of the payload, with
`subRecords := none`, since the `Array.isArray` guards in the source
treat it exactly like an absent field). -/
inductive MSRecord : Type where
| mk (id : Option String) (sn : Option SNVal) (subRecords : Option (List MSRecord)) (payload : String) : MSRecord

/-- The `id` field of a record. -/
def MSRecord.id : MSRecord → Option String
| .mk i _ _ _ => i

/-- The `sn` field of a record. -/
def MSRecord.sn : MSRecord → Option SNVal
| .mk _ s _ _ => s

/-- The `subRecords` field of a record. -/
def MSRecord.subRecords : MSRecord → Option (List MSRecord)
| .mk _ _ u _ => u

/-- The `payload` (all remaining fields) of a record. -/
def MSRecord.payload : MSRecord → String
| .mk _ _ _ p => p

/-- `String(record.id)`: the sort key used by the comparator
`(a, b) => String(a.id).localeCompare(String(b.id))`
(src/server.js:79,84).  A missing id stringifies to "undefined". -/
def idKey (r : MSRecord) : String :=
  match r.id with
  | some s => s
  | none => "undefined"

/-- The comparator relation of the sort at src/server.js:79,84,
instantiated with code-point order (the specification's "lexicographic
string comparison" reading).  The real `localeCompare` order depends on
the environment's collation, so every order-sensitive claim is proved
over an arbitrary admissible collation through the parameterized copy
of the routine below (`recLC`, `ensureAndSortRecordsLC`); this concrete
instance keeps the rest of the development executable. -/
def recLE (a b : MSRecord) : Prop := idKey a ≤ idKey b

instance : DecidableRel recLE := fun a b =>
  inferInstanceAs (Decidable (idKey a ≤ idKey b))

instance : IsTotal MSRecord recLE := ⟨fun a b => le_total (idKey a) (idKey b)⟩

instance : IsTrans MSRecord recLE := ⟨fun _ _ _ h h2 => le_trans h h2⟩

/-- Model of `uuidv4()` (the identifier generator): a fresh-name supply
driven by a threaded counter.  Like a real UUID, every generated
identifier is a non-empty string. -/
def genId (g : Nat) : String × Nat := ("uuid-" ++ toString g, g + 1)

/-- JavaScript truthiness of an id value: `!record.id` is true exactly
when the id is absent or the empty string (src/server.js:56,66). -/
def idFalsy : Option String → Bool
| none => true
| some s => s == ""

/-- `if (!record.id) record.id = uuidv4()` (src/server.js:56-58). -/
def ensureId (i : Option String) (g : Nat) : Option String × Nat :=
  if idFalsy i then (some (genId g).1, (genId g).2) else (i, g)

/-- `if (record.sn !== undefined) record.sn = parseInt(record.sn, 10)`
(src/server.js:60-62). -/
def coerceSn : Option SNVal → Option SNVal
| none => none
| some v => some (SNVal.num (jsParseInt v))

mutual

/-- Embedding of `ensureAndSortRecords` (src/server.js:52-85) on array
inputs: process every element in order (assigning missing ids, coercing
`sn`, recursively handling `subRecords`), then sort by `String(id)`.
The non-array entry guard of line 53 is modelled separately by
`ensureAndSortRecordsJS` below. -/
def ensureAndSortRecords (records : List MSRecord) (g : Nat) : List MSRecord × Nat :=
  let p := processTopList records g
  (List.insertionSort recLE p.1, p.2)
termination_by 2 * sizeOf records + 1
decreasing_by all_goals (simp_wf <;> omega)

/-- The stateful traversal `records.map(record => ...)` of
src/server.js:55-82, threading the identifier generator left to
right. -/
def processTopList (rs : List MSRecord) (g : Nat) : List MSRecord × Nat :=
  match rs with
  | [] => ([], g)
  | r :: rest =>
    let a := processTop r g
    let b := processTopList rest a.2
    (a.1 :: b.1, b.2)
termination_by 2 * sizeOf rs
decreasing_by all_goals (simp_wf <;> omega)

/-- The body of the outer `records.map` callback (src/server.js:55-81):
ensure the id, coerce `sn`, and, when `subRecords` is an array, process
its elements (via the inlined callback of lines 65-77) and sort them by
id (line 79). -/
def processTop (r : MSRecord) (g : Nat) : MSRecord × Nat :=
  match r with
  | .mk i s sub pay =>
    let ig := ensureId i g
    let s2 := coerceSn s
    match sub with
    | none => (MSRecord.mk ig.1 s2 none pay, ig.2)
    | some children =>
      let c := processSubList children ig.2
      (MSRecord.mk ig.1 s2 (some (List.insertionSort recLE c.1)) pay, c.2)
termination_by 2 * sizeOf r
decreasing_by all_goals (simp_wf <;> omega)

/-- The stateful traversal `record.subRecords.map(subRecord => ...)` of
src/server.js:65-77. -/
def processSubList (rs : List MSRecord) (g : Nat) : List MSRecord × Nat :=
  match rs with
  | [] => ([], g)
  | r :: rest =>
    let a := processSub r g
    let b := processSubList rest a.2
    (a.1 :: b.1, b.2)
termination_by 2 * sizeOf rs
decreasing_by all_goals (simp_wf <;> omega)

/-- The body of the inner `subRecords.map` callback
(src/server.js:65-76): ensure the id, coerce `sn`, and recurse into
deeper `subRecords` through `ensureAndSortRecords` (line 74). -/
def processSub (r : MSRecord) (g : Nat) : MSRecord × Nat :=
  match r with
  | .mk i s sub pay =>
    let ig := ensureId i g
    let s2 := coerceSn s
    match sub with
    | none => (MSRecord.mk ig.1 s2 none pay, ig.2)
    | some children =>
      let c := ensureAndSortRecords children ig.2
      (MSRecord.mk ig.1 s2 (some c.1) pay, c.2)
termination_by 2 * sizeOf r
decreasing_by all_goals (simp_wf <;> omega)

end

section Collation

variable (lc : String → String → Prop) [DecidableRel lc]

/-- The sort relation induced on records by an arbitrary collation
`lc`, where `lc s t` models `s.localeCompare(t) <= 0`
(src/server.js:79,84) for whatever collation the JavaScript
environment uses.  `Array.prototype.sort` guarantees a sorted result
for any consistent comparator, i.e. whenever `lc` is a total preorder
on strings; Node's default ICU collation is one such preorder (and is
not code-point order: it puts "a" before "B"). -/
def recLC (a b : MSRecord) : Prop := lc (idKey a) (idKey b)

instance : DecidableRel (recLC lc) := fun a b =>
  inferInstanceAs (Decidable (lc (idKey a) (idKey b)))

mutual

/-- `ensureAndSortRecords` (src/server.js:52-85) with the comparator
collation `lc` as a parameter: identical to `ensureAndSortRecords`
above except that every sort uses `lc` on the `String(id)` keys. -/
def ensureAndSortRecordsLC (records : List MSRecord) (g : Nat) : List MSRecord × Nat :=
  let p := processTopListLC records g
  (List.insertionSort (recLC lc) p.1, p.2)
termination_by 2 * sizeOf records + 1
decreasing_by all_goals (simp_wf <;> omega)

/-- The traversal `records.map(record => ...)` of src/server.js:55-82,
comparator-parameterized. -/
def processTopListLC (rs : List MSRecord) (g : Nat) : List MSRecord × Nat :=
  match rs with
  | [] => ([], g)
  | r :: rest =>
    let a := processTopLC r g
    let b := processTopListLC rest a.2
    (a.1 :: b.1, b.2)
termination_by 2 * sizeOf rs
decreasing_by all_goals (simp_wf <;> omega)

/-- The outer `records.map` callback (src/server.js:55-81),
comparator-parameterized. -/
def processTopLC (r : MSRecord) (g : Nat) : MSRecord × Nat :=
  match r with
  | .mk i s sub pay =>
    let ig := ensureId i g
    let s2 := coerceSn s
    match sub with
    | none => (MSRecord.mk ig.1 s2 none pay, ig.2)
    | some children =>
      let c := processSubListLC children ig.2
      (MSRecord.mk ig.1 s2 (some (List.insertionSort (recLC lc) c.1)) pay, c.2)
termination_by 2 * sizeOf r
decreasing_by all_goals (simp_wf <;> omega)

/-- The traversal `record.subRecords.map(subRecord => ...)` of
src/server.js:65-77, comparator-parameterized. -/
def processSubListLC (rs : List MSRecord) (g : Nat) : List MSRecord × Nat :=
  match rs with
  | [] => ([], g)
  | r :: rest =>
    let a := processSubLC r g
    let b := processSubListLC rest a.2
    (a.1 :: b.1, b.2)
termination_by 2 * sizeOf rs
decreasing_by all_goals (simp_wf <;> omega)

/-- The inner `subRecords.map` callback (src/server.js:65-76),
comparator-parameterized. -/
def processSubLC (r : MSRecord) (g : Nat) : MSRecord × Nat :=
  match r with
  | .mk i s sub pay =>
    let ig := ensureId i g
    let s2 := coerceSn s
    match sub with
    | none => (MSRecord.mk ig.1 s2 none pay, ig.2)
    | some children =>
      let c := ensureAndSortRecordsLC children ig.2
      (MSRecord.mk ig.1 s2 (some c.1) pay, c.2)
termination_by 2 * sizeOf r
decreasing_by all_goals (simp_wf <;> omega)

end

mutual

/-- Every `subRecords` array of the tree rooted at `r` is sorted by the
collation `lc` on the `String(id)` keys, at every depth. -/
def sortedSubRecLC (r : MSRecord) : Bool :=
  match r with
  | .mk _ _ sub _ =>
    match sub with
    | none => true
    | some l => decide (List.Sorted (recLC lc) l) && sortedSubListLC l

/-- `sortedSubRecLC` for every record of a list of trees. -/
def sortedSubListLC (rs : List MSRecord) : Bool :=
  match rs with
  | [] => true
  | r :: rest => sortedSubRecLC r && sortedSubListLC rest

end

end Collation

/-- A sample admissible collation used to exercise the parameterized
theorems: compare strings by length. -/
def lenLE (s t : String) : Prop := s.length ≤ t.length

instance : DecidableRel lenLE := fun s t =>
  inferInstanceAs (Decidable (s.length ≤ t.length))

/-- Whether an optional `sn` field is absent or already a number (the
shape `parseInt` coercion produces). -/
def snNumeric : Option SNVal → Bool
| none => true
| some (SNVal.num _) => true
| some _ => false

mutual

/-- Every record of the tree rooted at `r` (the record itself and all
records reachable through `subRecords`, at every depth) carries a
non-empty id. -/
def hasIdRec (r : MSRecord) : Bool :=
  match r with
  | .mk i _ sub _ =>
    !(idFalsy i) &&
      (match sub with
       | none => true
       | some l => hasIdList l)

/-- `hasIdRec` for every record of a list of trees. -/
def hasIdList (rs : List MSRecord) : Bool :=
  match rs with
  | [] => true
  | r :: rest => hasIdRec r && hasIdList rest

end

mutual

/-- Every `subRecords` array of the tree rooted at `r` is sorted by the
comparator key `String(id)`, at every depth. -/
def sortedSubRec (r : MSRecord) : Bool :=
  match r with
  | .mk _ _ sub _ =>
    match sub with
    | none => true
    | some l => decide (List.Sorted recLE l) && sortedSubList l

/-- `sortedSubRec` for every record of a list of trees. -/
def sortedSubList (rs : List MSRecord) : Bool :=
  match rs with
  | [] => true
  | r :: rest => sortedSubRec r && sortedSubList rest

end

mutual

/-- The full normal form `ensureAndSortRecords` establishes on each
record: non-empty id, numeric (or absent) `sn`, and `subRecords` (when
present) normalized and sorted. -/
def normRec (r : MSRecord) : Bool :=
  match r with
  | .mk i s sub _ =>
    !(idFalsy i) && snNumeric s &&
      (match sub with
       | none => true
       | some l => normList l && decide (List.Sorted recLE l))

/-- `normRec` for every record of a list of trees. -/
def normList (rs : List MSRecord) : Bool :=
  match rs with
  | [] => true
  | r :: rest => normRec r && normList rest

end

mutual

/-- Total number of records in the tree rooted at `r` (the record plus
all nested records at every depth). -/
def countRec (r : MSRecord) : Nat :=
  match r with
  | .mk _ _ none _ => 1
  | .mk _ _ (some l) _ => 1 + countList l

/-- Total number of records in a list of trees. -/
def countList (rs : List MSRecord) : Nat :=
  match rs with
  | [] => 0
  | r :: rest => countRec r + countList rest

end

mutual

/-- Every `sn` value of the tree rooted at `r` is NaN or an integer of
magnitude below 10^21, at every depth (the range on which the `String`
rendering stays in plain decimal, so `parseInt` recovers the value). -/
def snBoundedRec (r : MSRecord) : Bool :=
  match r with
  | .mk _ s sub _ =>
    snValBounded s &&
      (match sub with
       | none => true
       | some l => snBoundedList l)

/-- `snBoundedRec` for every record of a list of trees. -/
def snBoundedList (rs : List MSRecord) : Bool :=
  match rs with
  | [] => true
  | r :: rest => snBoundedRec r && snBoundedList rest

end

/-- An element of a JavaScript array handed to `ensureAndSortRecords`:
either an actual record object, or `null`/`undefined` (on which the
property access `record.id` at src/server.js:56 throws a
`TypeError`). -/
inductive JSElem : Type where
| elemNull : JSElem
| elemUndef : JSElem
| elemRec (r : MSRecord) : JSElem

/-- An arbitrary JavaScript value at the entry of
`ensureAndSortRecords`: either not an array (null, undefined, a string,
a number, an object, ...) — summarized by a descriptive tag — or an
array of elements. -/
inductive JSInput : Type where
| notArray (tag : String) : JSInput
| arrayOf (elems : List JSElem) : JSInput

/-- Reading `record.id` on an array element: throws a `TypeError` on
`null`/`undefined` elements, otherwise yields the record. -/
def readElem : JSElem → Except String MSRecord
| JSElem.elemNull => Except.error "TypeError"
| JSElem.elemUndef => Except.error "TypeError"
| JSElem.elemRec r => Except.ok r

/-- Sequential traversal of the array elements: stops with the
`TypeError` of the first `null`/`undefined` element. -/
def readElems : List JSElem → Except String (List MSRecord)
| [] => Except.ok []
| e :: rest =>
  match readElem e with
  | Except.error err => Except.error err
  | Except.ok r =>
    match readElems rest with
    | Except.error err => Except.error err
    | Except.ok rs => Except.ok (r :: rs)

/-- Entry behavior of `ensureAndSortRecords` (src/server.js:52-53) on an
arbitrary JavaScript value: a non-array input returns `[]`; an array is
traversed in order by `records.map`, which throws a `TypeError` at the
first `null`/`undefined` element (the `record.id` access) and otherwise
normalizes the records. -/
def ensureAndSortRecordsJS (v : JSInput) (g : Nat) : Except String (List MSRecord × Nat) :=
  match v with
  | JSInput.notArray _ => Except.ok ([], g)
  | JSInput.arrayOf elems =>
    match readElems elems with
    | Except.error e => Except.error e
    | Except.ok rs => Except.ok (ensureAndSortRecords rs g)

/-- A stored project (src/server.js:139-146): id, name, details, record
tree, and the two timestamps.  Timestamps are modelled as opaque
strings (ISO timestamps in the source). -/
structure Project : Type where
  pid : String
  name : String
  details : String
  records : List MSRecord
  createdAt : String
  updatedAt : String

/-- The body of a POST /api/projects request
(`const { name, details, records } = req.body`, src/server.js:130).
Absent fields are `none`. -/
structure CreateBody : Type where
  bname : Option String
  bdetails : Option String
  brecords : Option (List MSRecord)

/-- The body of a PUT /api/projects/:id request (src/server.js:161). -/
structure UpdateBody : Type where
  bname : Option String
  bdetails : Option String
  brecords : Option (List MSRecord)

/-- The `projectData` object of a POST /api/projects/:id/save request
(src/server.js:207).  Every field is optional; present fields are
merged into the stored project by the object spread at
src/server.js:216-221. -/
structure ProjectData : Type where
  dpid : Option String
  dname : Option String
  ddetails : Option String
  drecords : Option (List MSRecord)
  dcreatedAt : Option String
  dupdatedAt : Option String

/-- JavaScript `String.prototype.trim` (`name.trim()` at
src/server.js:141): strip leading and trailing whitespace. -/
def jsTrim (s : String) : String :=
  String.mk (((s.data.dropWhile isSpaceCh).reverse.dropWhile isSpaceCh).reverse)

/-- JavaScript truthiness of the `name` value in a request body:
`!name` is true exactly when `name` is absent or the empty string
(src/server.js:132). -/
def nameFalsy : Option String → Bool
| none => true
| some s => s == ""

/-- `loadProjects` (src/server.js:32-44) after a successful file read:
every project's `records` tree is normalized in order
(`projects.forEach(project => project.records = ensureAndSortRecords(project.records))`).
A failed read or parse returns the empty collection instead; the
persisted collection is modelled post-parse, as a list of projects. -/
def loadProjects (ps : List Project) (g : Nat) : List Project × Nat :=
  match ps with
  | [] => ([], g)
  | p :: rest =>
    let r := ensureAndSortRecords p.records g
    let b := loadProjects rest r.2
    ({ p with records := r.1 } :: b.1, b.2)

/-- The outcome of one request handler: the HTTP status, the collection
handed to `saveProjects` (`none` when `saveProjects` is not invoked, in
which case the persisted collection is untouched), and the project
returned in the response body, when any. -/
structure ApiResult : Type where
  status : Nat
  savedProjects : Option (List Project)
  responseProject : Option Project

/-- Handler of POST /api/projects (src/server.js:128-156): reject a
falsy `name` with 400 before touching the store; otherwise load,
normalize the body's records (`records || []`), build the new project
with a fresh id, trimmed name, defaulted details and both timestamps
set to now, append it and save. -/
def createProject (body : CreateBody) (persisted : List Project) (g : Nat) (now : String) : ApiResult :=
  if nameFalsy body.bname then
    { status := 400, savedProjects := none, responseProject := none }
  else
    let lp := loadProjects persisted g
    let sr := ensureAndSortRecords ((body.brecords).getD []) lp.2
    let u := genId sr.2
    let newP : Project :=
      { pid := u.1, name := jsTrim ((body.bname).getD ""),
        details := (body.bdetails).getD "", records := sr.1,
        createdAt := now, updatedAt := now }
    { status := 201, savedProjects := some (lp.1 ++ [newP]),
      responseProject := some newP }

/-- Handler of GET /api/projects/:id (src/server.js:109-125): load, find
the project by id, 404 when absent; on success the project's records
are normalized once more (line 119) and the project is returned.  No
save ever happens. -/
def getOneProject (pid : String) (persisted : List Project) (g : Nat) : ApiResult :=
  let lp := loadProjects persisted g
  match lp.1.find? (fun p => p.pid == pid) with
  | none => { status := 404, savedProjects := none, responseProject := none }
  | some p =>
    let r := ensureAndSortRecords p.records lp.2
    { status := 200, savedProjects := none,
      responseProject := some { p with records := r.1 } }

/-- Handler of PUT /api/projects/:id (src/server.js:159-184): load, find
the index of the project, 404 when absent; otherwise normalize
`records || stored.records`, replace the project with
`{...stored, name: name || stored.name, details: details !== undefined ? details : stored.details, records, updatedAt: now}`
and save.  (The 500 branch is unreachable: `findIdx?` returns an
in-bounds index.) -/
def updateProject (pid : String) (body : UpdateBody) (persisted : List Project) (g : Nat) (now : String) : ApiResult :=
  let lp := loadProjects persisted g
  match lp.1.findIdx? (fun p => p.pid == pid) with
  | none => { status := 404, savedProjects := none, responseProject := none }
  | some i =>
    match lp.1[i]? with
    | none => { status := 500, savedProjects := none, responseProject := none }
    | some stored =>
      let ur := ensureAndSortRecords ((body.brecords).getD stored.records) lp.2
      let newName :=
        match body.bname with
        | some n => if n == "" then stored.name else n
        | none => stored.name
      let newP : Project :=
        { pid := stored.pid, name := newName,
          details := (body.bdetails).getD stored.details,
          records := ur.1, createdAt := stored.createdAt, updatedAt := now }
      { status := 200, savedProjects := some (lp.1.set i newP),
        responseProject := some newP }

/-- Handler of DELETE /api/projects/:id (src/server.js:187-202): load,
filter out the project; when nothing was removed answer 404 without
saving, otherwise save the filtered collection. -/
def deleteProject (pid : String) (persisted : List Project) (g : Nat) : ApiResult :=
  let lp := loadProjects persisted g
  let filtered := lp.1.filter (fun p => !(p.pid == pid))
  if filtered.length == lp.1.length then
    { status := 404, savedProjects := none, responseProject := none }
  else
    { status := 200, savedProjects := some filtered, responseProject := none }

/-- The object spread `{...base, ...pd}`: every field present in `pd`
overrides the field of `base`. -/
def spreadData (base : Project) (pd : ProjectData) : Project :=
  { pid := (pd.dpid).getD base.pid, name := (pd.dname).getD base.name,
    details := (pd.ddetails).getD base.details,
    records := (pd.drecords).getD base.records,
    createdAt := (pd.dcreatedAt).getD base.createdAt,
    updatedAt := (pd.dupdatedAt).getD base.updatedAt }

/-- Handler of POST /api/projects/:id/save (src/server.js:205-229):
load, find the index of the project, 404 when absent; otherwise
normalize `(projectData && projectData.records) || stored.records` and
replace the project with
`{...stored, ...projectData, records: updatedRecords, updatedAt: now}`
— note that a `projectData` carrying `id` or `createdAt` overrides the
stored values through the spread.  (The 500 branch is unreachable.) -/
def saveProject (pid : String) (body : Option ProjectData) (persisted : List Project) (g : Nat) (now : String) : ApiResult :=
  let lp := loadProjects persisted g
  match lp.1.findIdx? (fun p => p.pid == pid) with
  | none => { status := 404, savedProjects := none, responseProject := none }
  | some i =>
    match lp.1[i]? with
    | none => { status := 500, savedProjects := none, responseProject := none }
    | some stored =>
      let recIn :=
        match body with
        | none => stored.records
        | some pd => (pd.drecords).getD stored.records
      let ur := ensureAndSortRecords recIn lp.2
      let merged :=
        match body with
        | none => stored
        | some pd => spreadData stored pd
      let newP : Project := { merged with records := ur.1, updatedAt := now }
      { status := 200, savedProjects := some (lp.1.set i newP),
        responseProject := some newP }

/-! ### Properties of the `parseInt` model -/

theorem digit_roundtrip (d : Nat) (hd : d < 10) :
    charDigitVal (digitToChar d) = d ∧ isDigitCh (digitToChar d) = true := by
  interval_cases d <;> exact ⟨by decide, by decide⟩

theorem digit_not_special {c : Char} (h : isDigitCh c = true) :
    isSpaceCh c = false ∧ (c == '-') = false ∧ (c == '+') = false := by
  unfold isDigitCh at h
  rw [Bool.and_eq_true, decide_eq_true_eq, decide_eq_true_eq] at h
  unfold isSpaceCh
  refine ⟨?_, ?_, ?_⟩
  · rw [Bool.or_eq_false_iff, Bool.or_eq_false_iff, Bool.or_eq_false_iff]
    refine ⟨⟨⟨?_, ?_⟩, ?_⟩, ?_⟩ <;>
      (rw [beq_eq_false_iff_ne]; rintro rfl; exact absurd h (by decide))
  · rw [beq_eq_false_iff_ne]; rintro rfl; exact absurd h (by decide)
  · rw [beq_eq_false_iff_ne]; rintro rfl; exact absurd h (by decide)

theorem digitsToNat_reverse (l : List Nat) :
    digitsToNat l.reverse = Nat.ofDigits 10 l := by
  induction l with
  | nil => simp [digitsToNat, Nat.ofDigits]
  | cons d t ih =>
    unfold digitsToNat at ih ⊢
    rw [List.foldl_reverse] at ih ⊢
    rw [List.foldr_cons, Nat.ofDigits_cons, ih]
    push_cast
    omega

theorem takeWhile_all {α : Type} (p : α → Bool) :
    ∀ l : List α, (∀ a ∈ l, p a = true) → l.takeWhile p = l := by
  intro l
  induction l with
  | nil => intro _; rfl
  | cons a t ih =>
    intro h
    rw [List.takeWhile_cons, h a (List.mem_cons_self a t)]
    simp only [if_true]
    rw [ih (fun b hb => h b (List.mem_cons_of_mem a hb))]

theorem decDigitsRevAux_eq (f : Nat) :
    ∀ n, n ≤ f → decDigitsRevAux f n = Nat.digits 10 n := by
  induction f with
  | zero =>
    intro n hn
    have h0 : n = 0 := Nat.le_zero.mp hn
    subst h0
    simp [decDigitsRevAux]
  | succ f ih =>
    intro n hn
    match n with
    | 0 => simp [decDigitsRevAux]
    | m + 1 =>
      show ((m + 1) % 10) :: decDigitsRevAux f ((m + 1) / 10) = Nat.digits 10 (m + 1)
      rw [ih ((m + 1) / 10) (by omega),
        Nat.digits_def' (by norm_num : (1 : ℕ) < 10) (Nat.succ_pos m)]

theorem decDigitsRev_eq (n : Nat) : decDigitsRev n = Nat.digits 10 n :=
  decDigitsRevAux_eq n n (le_refl n)

theorem natToDecChars_ne_nil (m : Nat) : natToDecChars m ≠ [] := by
  unfold natToDecChars
  by_cases h : m = 0
  · simp [h]
  · rw [if_neg h, decDigitsRev_eq]
    simp [Nat.digits_ne_nil_iff_ne_zero, h]

theorem natToDecChars_digits (m : Nat) :
    ∀ c ∈ natToDecChars m, isDigitCh c = true := by
  intro c hc
  unfold natToDecChars at hc
  by_cases h : m = 0
  · rw [if_pos h] at hc
    simp only [List.mem_singleton] at hc
    subst hc
    decide
  · rw [if_neg h, decDigitsRev_eq] at hc
    rw [List.mem_reverse, List.mem_map] at hc
    obtain ⟨d, hd, rfl⟩ := hc
    exact (digit_roundtrip d (Nat.digits_lt_base (by norm_num) hd)).2

theorem decChars_val (m : Nat) :
    digitsToNat ((natToDecChars m).map charDigitVal) = m := by
  by_cases h : m = 0
  · subst h; decide
  · unfold natToDecChars
    rw [if_neg h, decDigitsRev_eq, List.map_reverse, List.map_map]
    have hmap : (Nat.digits 10 m).map (charDigitVal ∘ digitToChar) = Nat.digits 10 m := by
      have := List.map_congr_left (l := Nat.digits 10 m)
        (f := charDigitVal ∘ digitToChar) (g := fun d => d)
        (fun d hd => (digit_roundtrip d (Nat.digits_lt_base (by norm_num) hd)).1)
      rw [this, List.map_id']
    rw [hmap, digitsToNat_reverse, Nat.ofDigits_digits]

theorem parseDigits_all (l : List Char) (hne : l ≠ [])
    (hall : ∀ c ∈ l, isDigitCh c = true) (neg : Bool) :
    parseDigits l neg =
      JSNum.int (if neg then -(digitsToNat (l.map charDigitVal) : Int)
                 else (digitsToNat (l.map charDigitVal) : Int)) := by
  unfold parseDigits
  rw [takeWhile_all isDigitCh l hall]
  simp [hne]

theorem parseIntChars_all (l : List Char) (hne : l ≠ [])
    (hall : ∀ c ∈ l, isDigitCh c = true) :
    parseIntChars l = JSNum.int (digitsToNat (l.map charDigitVal)) := by
  obtain ⟨c, cs, rfl⟩ := List.exists_cons_of_ne_nil hne
  have hc := hall c (List.mem_cons_self c cs)
  obtain ⟨hsp, hm, hp⟩ := digit_not_special hc
  have h1 : (c :: cs).dropWhile isSpaceCh = c :: cs := by
    rw [List.dropWhile_cons, hsp]
    simp
  unfold parseIntChars
  rw [h1]
  show (if c == '-' then parseDigits cs true
        else if c == '+' then parseDigits cs false
        else parseDigits (c :: cs) false) =
      JSNum.int (digitsToNat ((c :: cs).map charDigitVal))
  rw [hm, hp]
  simp only [Bool.false_eq_true, if_false]
  rw [parseDigits_all (c :: cs) (by simp) hall false]
  simp

theorem parseIntStr_jsNumToString (j : JSNum) (hb : jsNumBounded j = true) :
    parseIntStr (jsNumToString j) = j := by
  cases j with
  | nan => decide
  | int n =>
    have hlt : n.natAbs < 10 ^ 21 := by
      rw [jsNumBounded, decide_eq_true_eq] at hb
      exact hb
    by_cases h : n < 0
    · have hs : jsNumToString (JSNum.int n) = String.mk ('-' :: natToDecChars n.natAbs) := by
        show (if n.natAbs < 10 ^ 21 then
            if n < 0 then String.mk ('-' :: natToDecChars n.natAbs)
            else String.mk (natToDecChars n.natAbs)
          else
            if n < 0 then String.mk ('-' :: expCharsOf n.natAbs)
            else String.mk (expCharsOf n.natAbs)) =
          String.mk ('-' :: natToDecChars n.natAbs)
        rw [if_pos hlt, if_pos h]
      rw [hs]
      show parseIntChars ('-' :: natToDecChars n.natAbs) = JSNum.int n
      have h1 : ('-' :: natToDecChars n.natAbs).dropWhile isSpaceCh =
          '-' :: natToDecChars n.natAbs := by
        rw [List.dropWhile_cons]
        simp [isSpaceCh]
      unfold parseIntChars
      rw [h1]
      show (if '-' == '-' then parseDigits (natToDecChars n.natAbs) true
            else if '-' == '+' then parseDigits (natToDecChars n.natAbs) false
            else parseDigits ('-' :: natToDecChars n.natAbs) false) = JSNum.int n
      rw [if_pos (by decide)]
      rw [parseDigits_all _ (natToDecChars_ne_nil _) (natToDecChars_digits _) true,
        decChars_val]
      have hred : (if true = true then -((n.natAbs : Int)) else ((n.natAbs : Int))) =
          -((n.natAbs : Int)) := by simp
      rw [hred]
      congr 1
      omega
    · have hs : jsNumToString (JSNum.int n) = String.mk (natToDecChars n.natAbs) := by
        show (if n.natAbs < 10 ^ 21 then
            if n < 0 then String.mk ('-' :: natToDecChars n.natAbs)
            else String.mk (natToDecChars n.natAbs)
          else
            if n < 0 then String.mk ('-' :: expCharsOf n.natAbs)
            else String.mk (expCharsOf n.natAbs)) =
          String.mk (natToDecChars n.natAbs)
        rw [if_pos hlt, if_neg h]
      rw [hs]
      show parseIntChars (natToDecChars n.natAbs) = JSNum.int n
      rw [parseIntChars_all _ (natToDecChars_ne_nil _) (natToDecChars_digits _),
        decChars_val]
      congr 1
      omega

theorem jsParseInt_num (j : JSNum) (hb : jsNumBounded j = true) :
    jsParseInt (SNVal.num j) = j :=
  parseIntStr_jsNumToString j hb

theorem snNumeric_coerceSn (s : Option SNVal) : snNumeric (coerceSn s) = true := by
  cases s with
  | none => rfl
  | some v => rfl

/-! ### Unfolding equations for the normalization routine -/

theorem ensureAndSortRecords_eq (l : List MSRecord) (g : Nat) :
    ensureAndSortRecords l g =
      (List.insertionSort recLE (processTopList l g).1, (processTopList l g).2) := by
  simp [ensureAndSortRecords]

theorem processTopList_nil (g : Nat) : processTopList [] g = ([], g) := by
  simp [processTopList]

theorem processTopList_cons (r : MSRecord) (rest : List MSRecord) (g : Nat) :
    processTopList (r :: rest) g =
      ((processTop r g).1 :: (processTopList rest (processTop r g).2).1,
       (processTopList rest (processTop r g).2).2) := by
  simp [processTopList]

theorem processSubList_nil (g : Nat) : processSubList [] g = ([], g) := by
  simp [processSubList]

theorem processSubList_cons (r : MSRecord) (rest : List MSRecord) (g : Nat) :
    processSubList (r :: rest) g =
      ((processSub r g).1 :: (processSubList rest (processSub r g).2).1,
       (processSubList rest (processSub r g).2).2) := by
  simp [processSubList]

theorem processTop_none (i : Option String) (s : Option SNVal) (pay : String) (g : Nat) :
    processTop (MSRecord.mk i s none pay) g =
      (MSRecord.mk (ensureId i g).1 (coerceSn s) none pay, (ensureId i g).2) := by
  simp [processTop]

theorem processTop_some (i : Option String) (s : Option SNVal) (children : List MSRecord)
    (pay : String) (g : Nat) :
    processTop (MSRecord.mk i s (some children) pay) g =
      (MSRecord.mk (ensureId i g).1 (coerceSn s)
        (some (List.insertionSort recLE (processSubList children (ensureId i g).2).1)) pay,
       (processSubList children (ensureId i g).2).2) := by
  simp [processTop]

theorem processSub_none (i : Option String) (s : Option SNVal) (pay : String) (g : Nat) :
    processSub (MSRecord.mk i s none pay) g =
      (MSRecord.mk (ensureId i g).1 (coerceSn s) none pay, (ensureId i g).2) := by
  simp [processSub]

theorem processSub_some (i : Option String) (s : Option SNVal) (children : List MSRecord)
    (pay : String) (g : Nat) :
    processSub (MSRecord.mk i s (some children) pay) g =
      (MSRecord.mk (ensureId i g).1 (coerceSn s)
        (some (ensureAndSortRecords children (ensureId i g).2).1) pay,
       (ensureAndSortRecords children (ensureId i g).2).2) := by
  simp [processSub]

theorem sizeOf_head_lt (r : MSRecord) (rest : List MSRecord) :
    sizeOf r < sizeOf (r :: rest) := by
  simp only [List.cons.sizeOf_spec]
  omega

theorem sizeOf_tail_lt (r : MSRecord) (rest : List MSRecord) :
    sizeOf rest < sizeOf (r :: rest) := by
  simp only [List.cons.sizeOf_spec]
  omega

theorem sizeOf_children_lt (i : Option String) (s : Option SNVal)
    (children : List MSRecord) (pay : String) :
    sizeOf children < sizeOf (MSRecord.mk i s (some children) pay) := by
  simp only [MSRecord.mk.sizeOf_spec, Option.some.sizeOf_spec]
  omega

/-- The two `map` callbacks of the source (the outer one of lines 55-81
and the inner one of lines 65-76) compute the same function: the outer
callback is one inlined unrolling of the inner one. -/
theorem processSub_eq_master (n : Nat) :
    (∀ r : MSRecord, sizeOf r ≤ n → ∀ g, processSub r g = processTop r g) ∧
    (∀ l : List MSRecord, sizeOf l ≤ n → ∀ g, processSubList l g = processTopList l g) := by
  induction n using Nat.strong_induction_on with
  | _ n ih =>
    constructor
    · intro r hr g
      cases r with
      | mk i s sub pay =>
        cases sub with
        | none => rw [processSub_none, processTop_none]
        | some children =>
          rw [processSub_some, processTop_some, ensureAndSortRecords_eq]
          have hch : sizeOf children < n :=
            lt_of_lt_of_le (sizeOf_children_lt i s children pay) hr
          rw [(ih (sizeOf children) hch).2 children (le_refl _)]
    · intro l hl g
      cases l with
      | nil => rw [processSubList_nil, processTopList_nil]
      | cons r rest =>
        rw [processSubList_cons, processTopList_cons]
        have hr : sizeOf r < n := lt_of_lt_of_le (sizeOf_head_lt r rest) hl
        have hrest : sizeOf rest < n := lt_of_lt_of_le (sizeOf_tail_lt r rest) hl
        rw [(ih (sizeOf r) hr).1 r (le_refl _), (ih (sizeOf rest) hrest).2 rest (le_refl _)]

theorem processSub_eq (r : MSRecord) (g : Nat) : processSub r g = processTop r g :=
  (processSub_eq_master (sizeOf r)).1 r (le_refl _) g

theorem processSubList_eq (l : List MSRecord) (g : Nat) :
    processSubList l g = processTopList l g :=
  (processSub_eq_master (sizeOf l)).2 l (le_refl _) g

/-- `processTop` on a record with a `subRecords` array, phrased through
`ensureAndSortRecords` (sorting after mapping the inner callback is the
same as the recursive call of line 74). -/
theorem processTop_some_ensure (i : Option String) (s : Option SNVal)
    (children : List MSRecord) (pay : String) (g : Nat) :
    processTop (MSRecord.mk i s (some children) pay) g =
      (MSRecord.mk (ensureId i g).1 (coerceSn s)
        (some (ensureAndSortRecords children (ensureId i g).2).1) pay,
       (ensureAndSortRecords children (ensureId i g).2).2) := by
  rw [processTop_some, processSubList_eq, ensureAndSortRecords_eq]

/-! ### Transport lemmas for the tree checkers -/

theorem bool_eq_of_iff {a b : Bool} (h : a = true ↔ b = true) : a = b := by
  cases a <;> cases b <;> simp_all

theorem normList_iff (l : List MSRecord) :
    normList l = true ↔ ∀ r ∈ l, normRec r = true := by
  induction l with
  | nil => simp [normList]
  | cons r rest ih =>
    simp [normList, Bool.and_eq_true, ih]

theorem hasIdList_iff (l : List MSRecord) :
    hasIdList l = true ↔ ∀ r ∈ l, hasIdRec r = true := by
  induction l with
  | nil => simp [hasIdList]
  | cons r rest ih =>
    simp [hasIdList, Bool.and_eq_true, ih]

theorem sortedSubList_iff (l : List MSRecord) :
    sortedSubList l = true ↔ ∀ r ∈ l, sortedSubRec r = true := by
  induction l with
  | nil => simp [sortedSubList]
  | cons r rest ih =>
    simp [sortedSubList, Bool.and_eq_true, ih]

theorem normList_perm {l l2 : List MSRecord} (h : l.Perm l2) :
    normList l = normList l2 := by
  apply bool_eq_of_iff
  rw [normList_iff, normList_iff]
  exact ⟨fun ha r hr => ha r (h.mem_iff.mpr hr), fun ha r hr => ha r (h.mem_iff.mp hr)⟩

theorem hasIdList_perm {l l2 : List MSRecord} (h : l.Perm l2) :
    hasIdList l = hasIdList l2 := by
  apply bool_eq_of_iff
  rw [hasIdList_iff, hasIdList_iff]
  exact ⟨fun ha r hr => ha r (h.mem_iff.mpr hr), fun ha r hr => ha r (h.mem_iff.mp hr)⟩

theorem sortedSubList_perm {l l2 : List MSRecord} (h : l.Perm l2) :
    sortedSubList l = sortedSubList l2 := by
  apply bool_eq_of_iff
  rw [sortedSubList_iff, sortedSubList_iff]
  exact ⟨fun ha r hr => ha r (h.mem_iff.mpr hr), fun ha r hr => ha r (h.mem_iff.mp hr)⟩

theorem countList_eq_sum (l : List MSRecord) :
    countList l = (l.map countRec).sum := by
  induction l with
  | nil => simp [countList]
  | cons r rest ih =>
    simp [countList, ih]

theorem countList_perm {l l2 : List MSRecord} (h : l.Perm l2) :
    countList l = countList l2 := by
  rw [countList_eq_sum, countList_eq_sum]
  exact (h.map countRec).sum_eq

/-! ### The normal form established by the routine -/

theorem ensureId_not_falsy (i : Option String) (g : Nat) :
    idFalsy (ensureId i g).1 = false := by
  unfold ensureId
  by_cases h : idFalsy i = true
  · rw [if_pos h]
    show idFalsy (some ("uuid-" ++ toString g)) = false
    unfold idFalsy
    rw [beq_eq_false_iff_ne]
    intro hemp
    have hlen : ("uuid-" ++ toString g).length = 0 := by rw [hemp]; rfl
    rw [String.length_append] at hlen
    have h5 : ("uuid-" : String).length = 5 := by decide
    omega
  · rw [if_neg h]
    exact Bool.eq_false_iff.mpr h

theorem coerceSn_of_numeric {s : Option SNVal} (h : snNumeric s = true)
    (hb : snValBounded s = true) : coerceSn s = s := by
  cases s with
  | none => rfl
  | some v =>
    cases v with
    | num j =>
      have hb2 : jsNumBounded j = true := hb
      simp [coerceSn, jsParseInt_num j hb2]
    | str s2 => simp [snNumeric] at h
    | boolv b => simp [snNumeric] at h
    | nullv => simp [snNumeric] at h

/-- Outputs of the processing pass are in normal form, and record
counts and list lengths are preserved, at every nesting depth. -/
theorem ensure_master (n : Nat) :
    (∀ r : MSRecord, sizeOf r ≤ n → ∀ g,
      normRec (processTop r g).1 = true ∧ countRec (processTop r g).1 = countRec r) ∧
    (∀ l : List MSRecord, sizeOf l ≤ n → ∀ g,
      normList (processTopList l g).1 = true ∧
      countList (processTopList l g).1 = countList l ∧
      (processTopList l g).1.length = l.length) := by
  induction n using Nat.strong_induction_on with
  | _ n ih =>
    constructor
    · intro r hr g
      cases r with
      | mk i s sub pay =>
        cases sub with
        | none =>
          rw [processTop_none]
          constructor
          · simp [normRec, ensureId_not_falsy, snNumeric_coerceSn]
          · simp [countRec]
        | some children =>
          rw [processTop_some_ensure]
          have hch : sizeOf children < n :=
            lt_of_lt_of_le (sizeOf_children_lt i s children pay) hr
          have ihc := (ih (sizeOf children) hch).2 children (le_refl _) (ensureId i g).2
          rw [ensureAndSortRecords_eq]
          have hperm := List.perm_insertionSort recLE
            (processTopList children (ensureId i g).2).1
          constructor
          · simp only [normRec, Bool.and_eq_true]
            refine ⟨⟨?_, ?_⟩, ?_, ?_⟩
            · rw [ensureId_not_falsy]; rfl
            · exact snNumeric_coerceSn s
            · rw [normList_perm hperm]
              exact ihc.1
            · rw [decide_eq_true_eq]
              exact List.sorted_insertionSort recLE _
          · simp only [countRec]
            rw [countList_perm hperm, ihc.2.1]
    · intro l hl g
      cases l with
      | nil =>
        rw [processTopList_nil]
        exact ⟨rfl, rfl, rfl⟩
      | cons r rest =>
        rw [processTopList_cons]
        have hr : sizeOf r < n := lt_of_lt_of_le (sizeOf_head_lt r rest) hl
        have hrest : sizeOf rest < n := lt_of_lt_of_le (sizeOf_tail_lt r rest) hl
        have ihr := (ih (sizeOf r) hr).1 r (le_refl _) g
        have ihrest := (ih (sizeOf rest) hrest).2 rest (le_refl _) (processTop r g).2
        refine ⟨?_, ?_, ?_⟩
        · simp only [normList, Bool.and_eq_true]
          exact ⟨ihr.1, ihrest.1⟩
        · simp only [countList]
          rw [ihr.2, ihrest.2.1]
        · simp only [List.length_cons]
          rw [ihrest.2.2]

/-- A record in normal form has a non-empty id everywhere, and a list of
normal-form records has non-empty ids everywhere. -/
theorem norm_implies_hasId (n : Nat) :
    (∀ r : MSRecord, sizeOf r ≤ n → normRec r = true → hasIdRec r = true) ∧
    (∀ l : List MSRecord, sizeOf l ≤ n → normList l = true → hasIdList l = true) := by
  induction n using Nat.strong_induction_on with
  | _ n ih =>
    constructor
    · intro r hr hn
      cases r with
      | mk i s sub pay =>
        cases sub with
        | none =>
          simp only [normRec, Bool.and_eq_true] at hn
          simp only [hasIdRec, Bool.and_eq_true]
          exact ⟨hn.1.1, trivial⟩
        | some children =>
          simp only [normRec, Bool.and_eq_true] at hn
          simp only [hasIdRec, Bool.and_eq_true]
          have hch : sizeOf children < n :=
            lt_of_lt_of_le (sizeOf_children_lt i s children pay) hr
          exact ⟨hn.1.1, (ih (sizeOf children) hch).2 children (le_refl _) hn.2.1⟩
    · intro l hl hn
      cases l with
      | nil => rfl
      | cons r rest =>
        simp only [normList, Bool.and_eq_true] at hn
        simp only [hasIdList, Bool.and_eq_true]
        have hr : sizeOf r < n := lt_of_lt_of_le (sizeOf_head_lt r rest) hl
        have hrest : sizeOf rest < n := lt_of_lt_of_le (sizeOf_tail_lt r rest) hl
        exact ⟨(ih (sizeOf r) hr).1 r (le_refl _) hn.1,
               (ih (sizeOf rest) hrest).2 rest (le_refl _) hn.2⟩

/-- A record in normal form has every `subRecords` array sorted, at
every depth. -/
theorem norm_implies_sortedSub (n : Nat) :
    (∀ r : MSRecord, sizeOf r ≤ n → normRec r = true → sortedSubRec r = true) ∧
    (∀ l : List MSRecord, sizeOf l ≤ n → normList l = true → sortedSubList l = true) := by
  induction n using Nat.strong_induction_on with
  | _ n ih =>
    constructor
    · intro r hr hn
      cases r with
      | mk i s sub pay =>
        cases sub with
        | none => rfl
        | some children =>
          simp only [normRec, Bool.and_eq_true] at hn
          simp only [sortedSubRec, Bool.and_eq_true]
          have hch : sizeOf children < n :=
            lt_of_lt_of_le (sizeOf_children_lt i s children pay) hr
          exact ⟨hn.2.2, (ih (sizeOf children) hch).2 children (le_refl _) hn.2.1⟩
    · intro l hl hn
      cases l with
      | nil => rfl
      | cons r rest =>
        simp only [normList, Bool.and_eq_true] at hn
        simp only [sortedSubList, Bool.and_eq_true]
        have hr : sizeOf r < n := lt_of_lt_of_le (sizeOf_head_lt r rest) hl
        have hrest : sizeOf rest < n := lt_of_lt_of_le (sizeOf_tail_lt r rest) hl
        exact ⟨(ih (sizeOf r) hr).1 r (le_refl _) hn.1,
               (ih (sizeOf rest) hrest).2 rest (le_refl _) hn.2⟩

/-- Records and lists already in normal form, whose `sn` values are
all below the exponential-rendering threshold, are fixed points of the
processing pass, and leave the identifier generator untouched. -/
theorem norm_fixed_master (n : Nat) :
    (∀ r : MSRecord, sizeOf r ≤ n → normRec r = true → snBoundedRec r = true →
      ∀ g, processTop r g = (r, g)) ∧
    (∀ l : List MSRecord, sizeOf l ≤ n → normList l = true → snBoundedList l = true →
      ∀ g, processTopList l g = (l, g)) := by
  induction n using Nat.strong_induction_on with
  | _ n ih =>
    constructor
    · intro r hr hn hb g
      cases r with
      | mk i s sub pay =>
        cases sub with
        | none =>
          simp only [normRec, Bool.and_eq_true, Bool.not_eq_true'] at hn
          simp only [snBoundedRec, Bool.and_eq_true] at hb
          have hei : ensureId i g = (i, g) := by unfold ensureId; rw [hn.1.1]; simp
          rw [processTop_none, hei]
          show (MSRecord.mk i (coerceSn s) none pay, g) = (MSRecord.mk i s none pay, g)
          rw [coerceSn_of_numeric hn.1.2 hb.1]
        | some children =>
          simp only [normRec, Bool.and_eq_true, Bool.not_eq_true', decide_eq_true_eq] at hn
          simp only [snBoundedRec, Bool.and_eq_true] at hb
          have hei : ensureId i g = (i, g) := by unfold ensureId; rw [hn.1.1]; simp
          have hch : sizeOf children < n :=
            lt_of_lt_of_le (sizeOf_children_lt i s children pay) hr
          have h2 : ensureAndSortRecords children g = (children, g) := by
            rw [ensureAndSortRecords_eq,
              (ih (sizeOf children) hch).2 children (le_refl _) hn.2.1 hb.2 g]
            show (List.insertionSort recLE children, g) = (children, g)
            rw [List.Sorted.insertionSort_eq hn.2.2]
          rw [processTop_some_ensure, hei]
          show (MSRecord.mk i (coerceSn s)
                  (some (ensureAndSortRecords children g).1) pay,
                (ensureAndSortRecords children g).2) =
            (MSRecord.mk i s (some children) pay, g)
          rw [h2, coerceSn_of_numeric hn.1.2 hb.1]
    · intro l hl hn hb g
      cases l with
      | nil => exact processTopList_nil g
      | cons r rest =>
        simp only [normList, Bool.and_eq_true] at hn
        simp only [snBoundedList, Bool.and_eq_true] at hb
        have hr : sizeOf r < n := lt_of_lt_of_le (sizeOf_head_lt r rest) hl
        have hrest : sizeOf rest < n := lt_of_lt_of_le (sizeOf_tail_lt r rest) hl
        have h1 : processTop r g = (r, g) :=
          (ih (sizeOf r) hr).1 r (le_refl _) hn.1 hb.1 g
        have h2 : processTopList rest g = (rest, g) :=
          (ih (sizeOf rest) hrest).2 rest (le_refl _) hn.2 hb.2 g
        rw [processTopList_cons, h1]
        show (r :: (processTopList rest g).1, (processTopList rest g).2) = (r :: rest, g)
        rw [h2]

/-- The output of `ensureAndSortRecords` is in normal form and sorted. -/
theorem ensure_normList (l : List MSRecord) (g : Nat) :
    normList (ensureAndSortRecords l g).1 = true ∧
    List.Sorted recLE (ensureAndSortRecords l g).1 := by
  rw [ensureAndSortRecords_eq]
  constructor
  · show normList (List.insertionSort recLE (processTopList l g).1) = true
    rw [normList_perm (List.perm_insertionSort recLE _)]
    exact ((ensure_master (sizeOf l)).2 l (le_refl _) g).1
  · exact List.sorted_insertionSort recLE _

/-- A normal-form, sorted list whose `sn` values are all below the
exponential-rendering threshold is a fixed point of
`ensureAndSortRecords`, whatever the generator state. -/
theorem ensure_fixed {l : List MSRecord} (hn : normList l = true)
    (hb : snBoundedList l = true) (hs : List.Sorted recLE l) (g : Nat) :
    ensureAndSortRecords l g = (l, g) := by
  rw [ensureAndSortRecords_eq, (norm_fixed_master (sizeOf l)).2 l (le_refl _) hn hb g]
  show (List.insertionSort recLE l, g) = (l, g)
  rw [List.Sorted.insertionSort_eq hs]

/-! ### Claims about the normalization routine -/

/-- C1 (counterexample): normalization is NOT idempotent on every
tree.  The record `{id:"a", sn:"10000000000000000000000"}` (10^22)
parses to the number 1e22 on the first pass; `String(1e22)` is
"1e+22" (exponential notation starts at magnitude 10^21), and
`parseInt("1e+22", 10)` stops at the "e", so the second pass turns the
`sn` 1e22 into 1 and the trees differ. -/
theorem idempotence_claim_cex :
    ¬ (∀ (rs : List MSRecord) (g g2 : Nat),
        (ensureAndSortRecords (ensureAndSortRecords rs g).1 g2).1 =
          (ensureAndSortRecords rs g).1) := by
  intro h
  have h1 : processTop (MSRecord.mk (some "a")
      (some (SNVal.str "10000000000000000000000")) none "p") 0 =
      (MSRecord.mk (some "a")
        (some (SNVal.num (JSNum.int 10000000000000000000000))) none "p", 0) := by
    rw [processTop_none]
    rfl
  have hTL1 : processTopList [MSRecord.mk (some "a")
      (some (SNVal.str "10000000000000000000000")) none "p"] 0 =
      ([MSRecord.mk (some "a")
        (some (SNVal.num (JSNum.int 10000000000000000000000))) none "p"], 0) := by
    rw [processTopList_cons, h1]
    show (MSRecord.mk (some "a")
        (some (SNVal.num (JSNum.int 10000000000000000000000))) none "p" ::
        (processTopList [] 0).1, (processTopList [] 0).2) = _
    rw [processTopList_nil]
  have hval1 : ensureAndSortRecords [MSRecord.mk (some "a")
      (some (SNVal.str "10000000000000000000000")) none "p"] 0 =
      ([MSRecord.mk (some "a")
        (some (SNVal.num (JSNum.int 10000000000000000000000))) none "p"], 0) := by
    rw [ensureAndSortRecords_eq, hTL1]
    rfl
  have h2 : processTop (MSRecord.mk (some "a")
      (some (SNVal.num (JSNum.int 10000000000000000000000))) none "p") 0 =
      (MSRecord.mk (some "a") (some (SNVal.num (JSNum.int 1))) none "p", 0) := by
    rw [processTop_none]
    rfl
  have hTL2 : processTopList [MSRecord.mk (some "a")
      (some (SNVal.num (JSNum.int 10000000000000000000000))) none "p"] 0 =
      ([MSRecord.mk (some "a") (some (SNVal.num (JSNum.int 1))) none "p"], 0) := by
    rw [processTopList_cons, h2]
    show (MSRecord.mk (some "a") (some (SNVal.num (JSNum.int 1))) none "p" ::
        (processTopList [] 0).1, (processTopList [] 0).2) = _
    rw [processTopList_nil]
  have hval2 : ensureAndSortRecords [MSRecord.mk (some "a")
      (some (SNVal.num (JSNum.int 10000000000000000000000))) none "p"] 0 =
      ([MSRecord.mk (some "a") (some (SNVal.num (JSNum.int 1))) none "p"], 0) := by
    rw [ensureAndSortRecords_eq, hTL2]
    rfl
  have hinst : (ensureAndSortRecords [MSRecord.mk (some "a")
      (some (SNVal.num (JSNum.int 10000000000000000000000))) none "p"] 0).1 =
      [MSRecord.mk (some "a")
        (some (SNVal.num (JSNum.int 10000000000000000000000))) none "p"] := by
    have h0 := h [MSRecord.mk (some "a")
      (some (SNVal.str "10000000000000000000000")) none "p"] 0 0
    rw [hval1] at h0
    exact h0
  rw [hval2] at hinst
  have hsn := congrArg (fun l => l.map MSRecord.sn) hinst
  have hsn2 : ([some (SNVal.num (JSNum.int 1))] : List (Option SNVal)) =
      [some (SNVal.num (JSNum.int 10000000000000000000000))] := hsn
  exact absurd hsn2 (by decide)

/-- C1 (amended): normalization is idempotent on every tree whose
normalized `sn` values all have magnitude below 10^21 — the threshold
at which JavaScript `String` switches to exponential notation and
`parseInt(String(v))` stops recovering `v`.  On such trees, reapplying
`ensureAndSortRecords` to its own output returns that output unchanged
(identifiers already present are preserved, `sn` coercion and sorting
are stable under reapplication, at every nesting depth) and consumes no
fresh identifiers. -/
theorem ensureAndSortRecords_idempotent_bounded (rs : List MSRecord) (g g2 : Nat)
    (hb : snBoundedList (ensureAndSortRecords rs g).1 = true) :
    ensureAndSortRecords (ensureAndSortRecords rs g).1 g2 =
      ((ensureAndSortRecords rs g).1, g2) := by
  obtain ⟨hn, hs⟩ := ensure_normList rs g
  exact ensure_fixed hn hb hs g2

/-- C1 (witness): the tree `[{id:"a", sn:"3"}]` normalizes to
`[{id:"a", sn:3}]`, whose `sn` values are below 10^21, and
renormalizing it is the identity. -/
theorem idempotence_witness :
    snBoundedList (ensureAndSortRecords
      [MSRecord.mk (some "a") (some (SNVal.str "3")) none "p"] 0).1 = true ∧
    ensureAndSortRecords (ensureAndSortRecords
      [MSRecord.mk (some "a") (some (SNVal.str "3")) none "p"] 0).1 7 =
      ((ensureAndSortRecords
        [MSRecord.mk (some "a") (some (SNVal.str "3")) none "p"] 0).1, 7) := by
  have h1 : processTop (MSRecord.mk (some "a") (some (SNVal.str "3")) none "p") 0 =
      (MSRecord.mk (some "a") (some (SNVal.num (JSNum.int 3))) none "p", 0) := by
    rw [processTop_none]
    rfl
  have hTL : processTopList [MSRecord.mk (some "a") (some (SNVal.str "3")) none "p"] 0 =
      ([MSRecord.mk (some "a") (some (SNVal.num (JSNum.int 3))) none "p"], 0) := by
    rw [processTopList_cons, h1]
    show (MSRecord.mk (some "a") (some (SNVal.num (JSNum.int 3))) none "p" ::
        (processTopList [] 0).1, (processTopList [] 0).2) = _
    rw [processTopList_nil]
  have hval : ensureAndSortRecords
      [MSRecord.mk (some "a") (some (SNVal.str "3")) none "p"] 0 =
      ([MSRecord.mk (some "a") (some (SNVal.num (JSNum.int 3))) none "p"], 0) := by
    rw [ensureAndSortRecords_eq, hTL]
    rfl
  have hb : snBoundedList (ensureAndSortRecords
      [MSRecord.mk (some "a") (some (SNVal.str "3")) none "p"] 0).1 = true := by
    rw [hval]
    rfl
  exact ⟨hb, ensureAndSortRecords_idempotent_bounded _ 0 7 hb⟩

/-- C2: Totality of identifier assignment: for every array input
(including the empty array and records with a missing or empty id),
every record in the output of `ensureAndSortRecords`, at every nesting
depth, has a non-empty id. -/
theorem ensureAndSortRecords_total_ids (rs : List MSRecord) (g : Nat) :
    hasIdList (ensureAndSortRecords rs g).1 = true :=
  (norm_implies_hasId (sizeOf (ensureAndSortRecords rs g).1)).2 _
    (le_refl _) (ensure_normList rs g).1

theorem ensureAndSortRecordsLC_eq (lc : String → String → Prop) [DecidableRel lc]
    (l : List MSRecord) (g : Nat) :
    ensureAndSortRecordsLC lc l g =
      (List.insertionSort (recLC lc) (processTopListLC lc l g).1,
       (processTopListLC lc l g).2) := by
  simp [ensureAndSortRecordsLC]

theorem processTopListLC_nil (lc : String → String → Prop) [DecidableRel lc] (g : Nat) :
    processTopListLC lc [] g = ([], g) := by
  simp [processTopListLC]

theorem processTopListLC_cons (lc : String → String → Prop) [DecidableRel lc]
    (r : MSRecord) (rest : List MSRecord) (g : Nat) :
    processTopListLC lc (r :: rest) g =
      ((processTopLC lc r g).1 ::
        (processTopListLC lc rest (processTopLC lc r g).2).1,
       (processTopListLC lc rest (processTopLC lc r g).2).2) := by
  simp [processTopListLC]

theorem processSubListLC_nil (lc : String → String → Prop) [DecidableRel lc] (g : Nat) :
    processSubListLC lc [] g = ([], g) := by
  simp [processSubListLC]

theorem processSubListLC_cons (lc : String → String → Prop) [DecidableRel lc]
    (r : MSRecord) (rest : List MSRecord) (g : Nat) :
    processSubListLC lc (r :: rest) g =
      ((processSubLC lc r g).1 ::
        (processSubListLC lc rest (processSubLC lc r g).2).1,
       (processSubListLC lc rest (processSubLC lc r g).2).2) := by
  simp [processSubListLC]

theorem processTopLC_none (lc : String → String → Prop) [DecidableRel lc]
    (i : Option String) (s : Option SNVal) (pay : String) (g : Nat) :
    processTopLC lc (MSRecord.mk i s none pay) g =
      (MSRecord.mk (ensureId i g).1 (coerceSn s) none pay, (ensureId i g).2) := by
  simp [processTopLC]

theorem processTopLC_some (lc : String → String → Prop) [DecidableRel lc]
    (i : Option String) (s : Option SNVal) (children : List MSRecord)
    (pay : String) (g : Nat) :
    processTopLC lc (MSRecord.mk i s (some children) pay) g =
      (MSRecord.mk (ensureId i g).1 (coerceSn s)
        (some (List.insertionSort (recLC lc)
          (processSubListLC lc children (ensureId i g).2).1)) pay,
       (processSubListLC lc children (ensureId i g).2).2) := by
  simp [processTopLC]

theorem processSubLC_none (lc : String → String → Prop) [DecidableRel lc]
    (i : Option String) (s : Option SNVal) (pay : String) (g : Nat) :
    processSubLC lc (MSRecord.mk i s none pay) g =
      (MSRecord.mk (ensureId i g).1 (coerceSn s) none pay, (ensureId i g).2) := by
  simp [processSubLC]

theorem processSubLC_some (lc : String → String → Prop) [DecidableRel lc]
    (i : Option String) (s : Option SNVal) (children : List MSRecord)
    (pay : String) (g : Nat) :
    processSubLC lc (MSRecord.mk i s (some children) pay) g =
      (MSRecord.mk (ensureId i g).1 (coerceSn s)
        (some (ensureAndSortRecordsLC lc children (ensureId i g).2).1) pay,
       (ensureAndSortRecordsLC lc children (ensureId i g).2).2) := by
  simp [processSubLC]

/-- As for the concrete instance: the two `map` callbacks compute the
same function, for any collation. -/
theorem processSubLC_eq_master (lc : String → String → Prop) [DecidableRel lc] (n : Nat) :
    (∀ r : MSRecord, sizeOf r ≤ n → ∀ g, processSubLC lc r g = processTopLC lc r g) ∧
    (∀ l : List MSRecord, sizeOf l ≤ n → ∀ g,
      processSubListLC lc l g = processTopListLC lc l g) := by
  induction n using Nat.strong_induction_on with
  | _ n ih =>
    constructor
    · intro r hr g
      cases r with
      | mk i s sub pay =>
        cases sub with
        | none => rw [processSubLC_none, processTopLC_none]
        | some children =>
          rw [processSubLC_some, processTopLC_some, ensureAndSortRecordsLC_eq]
          have hch : sizeOf children < n :=
            lt_of_lt_of_le (sizeOf_children_lt i s children pay) hr
          rw [(ih (sizeOf children) hch).2 children (le_refl _)]
    · intro l hl g
      cases l with
      | nil => rw [processSubListLC_nil, processTopListLC_nil]
      | cons r rest =>
        rw [processSubListLC_cons, processTopListLC_cons]
        have hr : sizeOf r < n := lt_of_lt_of_le (sizeOf_head_lt r rest) hl
        have hrest : sizeOf rest < n := lt_of_lt_of_le (sizeOf_tail_lt r rest) hl
        rw [(ih (sizeOf r) hr).1 r (le_refl _),
          (ih (sizeOf rest) hrest).2 rest (le_refl _)]

theorem processSubListLC_eq (lc : String → String → Prop) [DecidableRel lc]
    (l : List MSRecord) (g : Nat) :
    processSubListLC lc l g = processTopListLC lc l g :=
  (processSubLC_eq_master lc (sizeOf l)).2 l (le_refl _) g

theorem processTopLC_some_ensure (lc : String → String → Prop) [DecidableRel lc]
    (i : Option String) (s : Option SNVal) (children : List MSRecord)
    (pay : String) (g : Nat) :
    processTopLC lc (MSRecord.mk i s (some children) pay) g =
      (MSRecord.mk (ensureId i g).1 (coerceSn s)
        (some (ensureAndSortRecordsLC lc children (ensureId i g).2).1) pay,
       (ensureAndSortRecordsLC lc children (ensureId i g).2).2) := by
  rw [processTopLC_some, processSubListLC_eq, ensureAndSortRecordsLC_eq]

theorem sortedSubListLC_iff (lc : String → String → Prop) [DecidableRel lc]
    (l : List MSRecord) :
    sortedSubListLC lc l = true ↔ ∀ r ∈ l, sortedSubRecLC lc r = true := by
  induction l with
  | nil => simp [sortedSubListLC]
  | cons r rest ih =>
    simp [sortedSubListLC, Bool.and_eq_true, ih]

theorem sortedSubListLC_perm (lc : String → String → Prop) [DecidableRel lc]
    {l l2 : List MSRecord} (h : l.Perm l2) :
    sortedSubListLC lc l = sortedSubListLC lc l2 := by
  apply bool_eq_of_iff
  rw [sortedSubListLC_iff, sortedSubListLC_iff]
  exact ⟨fun ha r hr => ha r (h.mem_iff.mpr hr), fun ha r hr => ha r (h.mem_iff.mp hr)⟩

/-- All `subRecords` arrays of the processing outputs are sorted by the
collation, for any admissible collation. -/
theorem sortedLC_master (lc : String → String → Prop) [DecidableRel lc]
    (htot : ∀ s t : String, lc s t ∨ lc t s)
    (htrans : ∀ a b c : String, lc a b → lc b c → lc a c) (n : Nat) :
    (∀ r : MSRecord, sizeOf r ≤ n → ∀ g,
      sortedSubRecLC lc (processTopLC lc r g).1 = true) ∧
    (∀ l : List MSRecord, sizeOf l ≤ n → ∀ g,
      sortedSubListLC lc (processTopListLC lc l g).1 = true) := by
  haveI : IsTotal MSRecord (recLC lc) := ⟨fun a b => htot _ _⟩
  haveI : IsTrans MSRecord (recLC lc) := ⟨fun a b c h1 h2 => htrans _ _ _ h1 h2⟩
  induction n using Nat.strong_induction_on with
  | _ n ih =>
    constructor
    · intro r hr g
      cases r with
      | mk i s sub pay =>
        cases sub with
        | none =>
          rw [processTopLC_none]
          rfl
        | some children =>
          rw [processTopLC_some_ensure, ensureAndSortRecordsLC_eq]
          have hch : sizeOf children < n :=
            lt_of_lt_of_le (sizeOf_children_lt i s children pay) hr
          have ihc := (ih (sizeOf children) hch).2 children (le_refl _) (ensureId i g).2
          simp only [sortedSubRecLC, Bool.and_eq_true]
          constructor
          · rw [decide_eq_true_eq]
            exact List.sorted_insertionSort (recLC lc) _
          · rw [sortedSubListLC_perm lc (List.perm_insertionSort (recLC lc) _)]
            exact ihc
    · intro l hl g
      cases l with
      | nil =>
        rw [processTopListLC_nil]
        rfl
      | cons r rest =>
        rw [processTopListLC_cons]
        simp only [sortedSubListLC, Bool.and_eq_true]
        have hr : sizeOf r < n := lt_of_lt_of_le (sizeOf_head_lt r rest) hl
        have hrest : sizeOf rest < n := lt_of_lt_of_le (sizeOf_tail_lt r rest) hl
        exact ⟨(ih (sizeOf r) hr).1 r (le_refl _) g,
               (ih (sizeOf rest) hrest).2 rest (le_refl _) _⟩

/-- C3 (amended): for every collation admissible for `localeCompare` —
any total preorder on strings, which is the consistent-comparator
contract `Array.prototype.sort` needs and which `localeCompare`
satisfies under any fixed locale, Node's default ICU collation
included — the output of the routine is sorted: siblings appear in
non-decreasing collation order of their `String(id)` keys at the top
level and inside every nested `subRecords` array, and when no two
sibling keys are collation-equivalent the order is strict, so a
sibling `a` appears before `b` exactly when `a`'s key strictly
precedes `b`'s. -/
theorem ensureAndSortRecords_sorted_collation
    (lc : String → String → Prop) [DecidableRel lc]
    (htot : ∀ s t : String, lc s t ∨ lc t s)
    (htrans : ∀ a b c : String, lc a b → lc b c → lc a c)
    (rs : List MSRecord) (g : Nat) :
    List.Pairwise (recLC lc) (ensureAndSortRecordsLC lc rs g).1 ∧
    sortedSubListLC lc (ensureAndSortRecordsLC lc rs g).1 = true ∧
    ((ensureAndSortRecordsLC lc rs g).1.Pairwise
        (fun a b => ¬ (lc (idKey a) (idKey b) ∧ lc (idKey b) (idKey a))) →
      (ensureAndSortRecordsLC lc rs g).1.Pairwise
        (fun a b => lc (idKey a) (idKey b) ∧ ¬ lc (idKey b) (idKey a))) := by
  haveI : IsTotal MSRecord (recLC lc) := ⟨fun a b => htot _ _⟩
  haveI : IsTrans MSRecord (recLC lc) := ⟨fun a b c h1 h2 => htrans _ _ _ h1 h2⟩
  have hsorted : List.Pairwise (recLC lc) (ensureAndSortRecordsLC lc rs g).1 := by
    rw [ensureAndSortRecordsLC_eq]
    exact List.sorted_insertionSort (recLC lc) _
  refine ⟨hsorted, ?_, ?_⟩
  · rw [ensureAndSortRecordsLC_eq]
    show sortedSubListLC lc
      (List.insertionSort (recLC lc) (processTopListLC lc rs g).1) = true
    rw [sortedSubListLC_perm lc (List.perm_insertionSort (recLC lc) _)]
    exact (sortedLC_master lc htot htrans (sizeOf rs)).2 rs (le_refl _) g
  · intro hne
    exact (hsorted.and hne).imp (fun h => ⟨h.1, fun hba => h.2 ⟨h.1, hba⟩⟩)

/-- C3 (counterexample): the claim that a sibling record `a` appears
before `b` if and only if `idKey a < idKey b` fails when two siblings
carry the same id: on `[{id:"x"}, {id:"x"}]` the stable sort keeps both
records, the first appears before the second, yet their keys are
equal. -/
theorem ordering_claim_cex :
    ¬ (∀ (rs : List MSRecord) (g : Nat) (i j : Nat) (a b : MSRecord),
        (ensureAndSortRecords rs g).1[i]? = some a →
        (ensureAndSortRecords rs g).1[j]? = some b →
        (i < j ↔ idKey a < idKey b)) := by
  intro h
  have hval : ensureAndSortRecords
      [MSRecord.mk (some "x") none none "a", MSRecord.mk (some "x") none none "b"] 0 =
      ([MSRecord.mk (some "x") none none "a", MSRecord.mk (some "x") none none "b"], 0) := by
    apply ensure_fixed
    · rfl
    · rfl
    · exact List.sorted_cons.mpr ⟨by intro b hb; simp at hb; subst hb; exact le_refl _,
        List.sorted_singleton _⟩
  have h2 := h _ 0 0 1 (MSRecord.mk (some "x") none none "a")
    (MSRecord.mk (some "x") none none "b")
    (by rw [hval]; rfl) (by rw [hval]; rfl)
  have h3 := h2.mp (by omega)
  have h4 : idKey (MSRecord.mk (some "x") none none "a") = "x" := rfl
  have h5 : idKey (MSRecord.mk (some "x") none none "b") = "x" := rfl
  rw [h4, h5] at h3
  exact lt_irrefl _ h3

/-- C5: Cardinality preservation: the output of `ensureAndSortRecords`
has exactly as many elements as the input at the top level, and exactly
as many records in total over all nesting levels; normalization never
drops or adds records. -/
theorem ensureAndSortRecords_cardinality (rs : List MSRecord) (g : Nat) :
    (ensureAndSortRecords rs g).1.length = rs.length ∧
    countList (ensureAndSortRecords rs g).1 = countList rs := by
  rw [ensureAndSortRecords_eq]
  have hm := (ensure_master (sizeOf rs)).2 rs (le_refl _) g
  constructor
  · show (List.insertionSort recLE (processTopList rs g).1).length = rs.length
    rw [List.length_insertionSort, hm.2.2]
  · show countList (List.insertionSort recLE (processTopList rs g).1) = countList rs
    rw [countList_perm (List.perm_insertionSort recLE _), hm.2.1]

theorem processTop_sn (r : MSRecord) (g : Nat) :
    (processTop r g).1.sn = coerceSn r.sn := by
  cases r with
  | mk i s sub pay =>
    cases sub with
    | none =>
      rw [processTop_none]
      rfl
    | some children =>
      rw [processTop_some]
      rfl

theorem processTopList_sn (rs : List MSRecord) (g i : Nat) :
    ((processTopList rs g).1[i]?).map MSRecord.sn =
      (rs[i]?).map (fun r => coerceSn r.sn) := by
  induction rs generalizing g i with
  | nil =>
    rw [processTopList_nil]
    simp
  | cons r rest ih =>
    rw [processTopList_cons]
    cases i with
    | zero =>
      simp [processTop_sn]
    | succ k =>
      simp only [List.getElem?_cons_succ]
      exact ih _ k

theorem parseDigits_no_digits (m : List Char)
    (hm : ∀ x ∈ m, isDigitCh x = false) (neg : Bool) :
    parseDigits m neg = JSNum.nan := by
  have ht : m.takeWhile isDigitCh = [] := by
    cases m with
    | nil => rfl
    | cons y ys =>
      rw [List.takeWhile_cons, hm y (List.mem_cons_self y ys)]
      rfl
  unfold parseDigits
  rw [ht]
  rfl

theorem parseIntChars_no_digits (l : List Char)
    (h : ∀ c ∈ l, isDigitCh c = false) :
    parseIntChars l = JSNum.nan := by
  have hsub : ∀ c ∈ l.dropWhile isSpaceCh, isDigitCh c = false :=
    fun c hc => h c ((List.dropWhile_sublist isSpaceCh).subset hc)
  cases hd : l.dropWhile isSpaceCh with
  | nil =>
    unfold parseIntChars
    rw [hd]
  | cons c cs =>
    rw [hd] at hsub
    have hcs : ∀ x ∈ cs, isDigitCh x = false :=
      fun x hx => hsub x (List.mem_cons_of_mem c hx)
    unfold parseIntChars
    rw [hd]
    show (if c == '-' then parseDigits cs true
          else if c == '+' then parseDigits cs false
          else parseDigits (c :: cs) false) = JSNum.nan
    by_cases h1 : (c == '-') = true
    · rw [if_pos h1]
      exact parseDigits_no_digits cs hcs true
    · rw [if_neg h1]
      by_cases h2 : (c == '+') = true
      · rw [if_pos h2]
        exact parseDigits_no_digits cs hcs false
      · rw [if_neg h2]
        exact parseDigits_no_digits (c :: cs) hsub false

/-- C7: Sequence-number coercion: for every record processed by the
normalization traversal (the outer callback at the top level and the
inner callback for `subRecords`), a record with no `sn` field keeps no
`sn` field, and a record with an `sn` field of any type gets its
base-10 integer parse; moreover any string without a single decimal
digit parses to the NaN sentinel, which is passed through without any
validation error. -/
theorem sn_coercion (rs : List MSRecord) (g i : Nat) :
    (((processTopList rs g).1[i]?).map MSRecord.sn =
      (rs[i]?).map (fun r =>
        match r.sn with
        | none => none
        | some v => some (SNVal.num (jsParseInt v)))) ∧
    (((processSubList rs g).1[i]?).map MSRecord.sn =
      (rs[i]?).map (fun r =>
        match r.sn with
        | none => none
        | some v => some (SNVal.num (jsParseInt v)))) ∧
    (∀ s : String, (∀ c ∈ s.data, isDigitCh c = false) →
      jsParseInt (SNVal.str s) = JSNum.nan) := by
  have hfun : (fun r : MSRecord =>
      (match r.sn with
       | none => none
       | some v => some (SNVal.num (jsParseInt v)) : Option SNVal)) =
      (fun r => coerceSn r.sn) := by
    funext r
    cases hr : r.sn with
    | none => rfl
    | some v => rfl
  refine ⟨?_, ?_, ?_⟩
  · rw [hfun]
    exact processTopList_sn rs g i
  · rw [hfun, processSubList_eq]
    exact processTopList_sn rs g i
  · intro s hs
    exact parseIntChars_no_digits s.data hs

/-- C7 (witness): a record with `sn: "12kg"` comes out with `sn: 12`, a
record without `sn` stays without one, and the non-numeric string "abc"
parses to the NaN sentinel. -/
theorem sn_coercion_witness :
    ((processTopList
        [MSRecord.mk (some "a") (some (SNVal.str "12kg")) none "p",
         MSRecord.mk (some "b") none none "q"] 0).1[0]?).map MSRecord.sn =
      some (some (SNVal.num (JSNum.int 12))) ∧
    ((processTopList
        [MSRecord.mk (some "a") (some (SNVal.str "12kg")) none "p",
         MSRecord.mk (some "b") none none "q"] 0).1[1]?).map MSRecord.sn =
      some none ∧
    jsParseInt (SNVal.str "abc") = JSNum.nan := by
  refine ⟨?_, ?_, ?_⟩
  · rw [(sn_coercion _ 0 0).1]
    decide
  · rw [(sn_coercion _ 0 1).1]
    decide
  · exact (sn_coercion [] 0 0).2.2 "abc" (by decide)

/-- C4 (counterexample): `ensureAndSortRecords` is not total on array
inputs: on the array `[null]` the property access `record.id` inside
the `map` callback (src/server.js:56) throws a `TypeError`, so the call
does not complete for every array input. -/
theorem graceful_claim_cex :
    ¬ (∀ (v : JSInput) (g : Nat), ∃ out, ensureAndSortRecordsJS v g = Except.ok out) := by
  intro h
  obtain ⟨out, hout⟩ := h (JSInput.arrayOf [JSElem.elemNull]) 0
  have hval : ensureAndSortRecordsJS (JSInput.arrayOf [JSElem.elemNull]) 0 =
      Except.error "TypeError" := rfl
  rw [hval] at hout
  exact Except.noConfusion hout

/-- C4 (amended): `ensureAndSortRecords` raises no error on any
non-array input (it returns the empty sequence) and completes on every
array whose elements are actual record objects, at every nesting depth;
only an array containing `null` or `undefined` elements makes it throw
a `TypeError`. -/
theorem ensureAndSortRecordsJS_graceful :
    (∀ (tag : String) (g : Nat),
      ensureAndSortRecordsJS (JSInput.notArray tag) g = Except.ok ([], g)) ∧
    (∀ (rs : List MSRecord) (g : Nat),
      ensureAndSortRecordsJS (JSInput.arrayOf (rs.map JSElem.elemRec)) g =
        Except.ok (ensureAndSortRecords rs g)) := by
  constructor
  · intro tag g
    rfl
  · intro rs g
    have hread : readElems (rs.map JSElem.elemRec) = Except.ok rs := by
      induction rs with
      | nil => rfl
      | cons r rest ih =>
        show (match readElem (JSElem.elemRec r) with
              | Except.error err => Except.error err
              | Except.ok r2 =>
                match readElems (rest.map JSElem.elemRec) with
                | Except.error err => Except.error err
                | Except.ok rs2 => Except.ok (r2 :: rs2)) = Except.ok (r :: rest)
        rw [ih]
        rfl
    show (match readElems (rs.map JSElem.elemRec) with
          | Except.error e => Except.error e
          | Except.ok rs2 => Except.ok (ensureAndSortRecords rs2 g)) =
        Except.ok (ensureAndSortRecords rs g)
    rw [hread]

/-! ### Properties of the request handlers -/

theorem ensure_nil (g : Nat) : ensureAndSortRecords [] g = ([], g) := by
  rw [ensureAndSortRecords_eq, processTopList_nil]
  rfl

theorem loadProjects_fields (ps : List Project) (g : Nat) :
    (loadProjects ps g).1.map (fun p => (p.pid, p.name, p.createdAt)) =
      ps.map (fun p => (p.pid, p.name, p.createdAt)) := by
  induction ps generalizing g with
  | nil => rfl
  | cons p rest ih =>
    show ((p.pid, p.name, p.createdAt) ::
        ((loadProjects rest (ensureAndSortRecords p.records g).2).1.map
          (fun p => (p.pid, p.name, p.createdAt)))) =
      (p.pid, p.name, p.createdAt) :: (rest.map (fun p => (p.pid, p.name, p.createdAt)))
    rw [ih]

theorem loadProjects_findIdx (ps : List Project) (g : Nat) (pid : String) :
    (loadProjects ps g).1.findIdx? (fun p => p.pid == pid) =
      ps.findIdx? (fun p => p.pid == pid) := by
  have h1 := List.findIdx?_map (p := fun t : String × String × String => t.1 == pid)
      (fun p : Project => (p.pid, p.name, p.createdAt)) (loadProjects ps g).1
  have h2 := List.findIdx?_map (p := fun t : String × String × String => t.1 == pid)
      (fun p : Project => (p.pid, p.name, p.createdAt)) ps
  rw [loadProjects_fields] at h1
  exact h1.symm.trans h2

theorem loadProjects_name (ps : List Project) (g : Nat) (i : Nat) :
    ((loadProjects ps g).1[i]?).map (fun p => p.name) =
      (ps[i]?).map (fun p => p.name) := by
  have h := congrArg (fun l => l[i]?) (loadProjects_fields ps g)
  simp only [List.getElem?_map] at h
  have h2 := congrArg (Option.map (fun t : String × String × String => t.2.1)) h
  rw [Option.map_map, Option.map_map] at h2
  exact h2

theorem loadProjects_length (ps : List Project) (g : Nat) :
    (loadProjects ps g).1.length = ps.length := by
  have h := congrArg List.length (loadProjects_fields ps g)
  rw [List.length_map, List.length_map] at h
  exact h

theorem loadProjects_mem_pid (ps : List Project) (g : Nat) :
    ∀ x ∈ (loadProjects ps g).1, ∃ p ∈ ps, x.pid = p.pid := by
  induction ps generalizing g with
  | nil =>
    intro x hx
    simp [loadProjects] at hx
  | cons p rest ih =>
    intro x hx
    have hx2 : x = { p with records := (ensureAndSortRecords p.records g).1 } ∨
        x ∈ (loadProjects rest (ensureAndSortRecords p.records g).2).1 := by
      simpa [loadProjects] using hx
    rcases hx2 with h1 | h2
    · exact ⟨p, List.mem_cons_self _ _, by rw [h1]⟩
    · obtain ⟨q, hq, hqe⟩ := ih _ x h2
      exact ⟨q, List.mem_cons_of_mem _ hq, hqe⟩

/-- C9: Client-error atomicity: a create request with a falsy name is
answered 400, and a read, update, delete or save request naming an
unknown project id is answered 404; in all five cases `saveProjects` is
not invoked (`savedProjects = none`), so the persisted collection is
untouched by the request. -/
theorem client_errors_do_not_save (persisted : List Project) (g : Nat)
    (now : String) (pid : String) :
    (∀ body : CreateBody, nameFalsy body.bname = true →
      (createProject body persisted g now).savedProjects = none ∧
      (createProject body persisted g now).status = 400) ∧
    ((∀ p ∈ persisted, p.pid ≠ pid) →
      ((getOneProject pid persisted g).savedProjects = none ∧
       (getOneProject pid persisted g).status = 404) ∧
      (∀ body : UpdateBody,
        (updateProject pid body persisted g now).savedProjects = none ∧
        (updateProject pid body persisted g now).status = 404) ∧
      ((deleteProject pid persisted g).savedProjects = none ∧
       (deleteProject pid persisted g).status = 404) ∧
      (∀ body : Option ProjectData,
        (saveProject pid body persisted g now).savedProjects = none ∧
        (saveProject pid body persisted g now).status = 404)) := by
  constructor
  · intro body h
    constructor
    · unfold createProject
      rw [if_pos h]
    · unfold createProject
      rw [if_pos h]
  · intro habs
    have hmem : ∀ x ∈ (loadProjects persisted g).1, (x.pid == pid) = false := by
      intro x hx
      obtain ⟨p, hp, hpe⟩ := loadProjects_mem_pid persisted g x hx
      rw [beq_eq_false_iff_ne, hpe]
      exact habs p hp
    have hfind : (loadProjects persisted g).1.find? (fun p => p.pid == pid) = none := by
      rw [List.find?_eq_none]
      intro x hx
      rw [hmem x hx]
      exact Bool.false_ne_true
    have hfidx : (loadProjects persisted g).1.findIdx? (fun p => p.pid == pid) = none :=
      List.findIdx?_eq_none_iff.mpr hmem
    have hfil : (loadProjects persisted g).1.filter (fun p => !(p.pid == pid)) =
        (loadProjects persisted g).1 := by
      rw [List.filter_eq_self]
      intro a ha
      rw [hmem a ha]
      rfl
    refine ⟨?_, ?_, ?_, ?_⟩
    · constructor
      · simp only [getOneProject]
        rw [hfind]
      · simp only [getOneProject]
        rw [hfind]
    · intro body
      constructor
      · simp only [updateProject]
        rw [hfidx]
      · simp only [updateProject]
        rw [hfidx]
    · constructor
      · simp only [deleteProject]
        rw [hfil, if_pos (by rw [beq_iff_eq])]
      · simp only [deleteProject]
        rw [hfil, if_pos (by rw [beq_iff_eq])]
    · intro body
      constructor
      · simp only [saveProject]
        rw [hfidx]
      · simp only [saveProject]
        rw [hfidx]

/-- C9 (witness): on the empty persisted collection, a create request
without a name and read/update/delete/save requests for the unknown id
"q" all leave the store untouched. -/
theorem client_errors_witness :
    ((createProject ⟨none, none, none⟩ [] 0 "t").savedProjects = none ∧
     (createProject ⟨none, none, none⟩ [] 0 "t").status = 400) ∧
    ((getOneProject "q" [] 0).savedProjects = none ∧
     (getOneProject "q" [] 0).status = 404) ∧
    ((updateProject "q" ⟨none, none, none⟩ [] 0 "t").savedProjects = none ∧
     (updateProject "q" ⟨none, none, none⟩ [] 0 "t").status = 404) ∧
    ((deleteProject "q" [] 0).savedProjects = none ∧
     (deleteProject "q" [] 0).status = 404) ∧
    ((saveProject "q" none [] 0 "t").savedProjects = none ∧
     (saveProject "q" none [] 0 "t").status = 404) := by
  have h := client_errors_do_not_save [] 0 "t" "q"
  have h1 := h.1 ⟨none, none, none⟩ (by decide)
  have h2 := h.2 (by intro p hp; simp at hp)
  exact ⟨h1, h2.1, h2.2.1 ⟨none, none, none⟩, h2.2.2.1, h2.2.2.2 none⟩

/-- The PUT handler on a found index, with the replacement project made
explicit. -/
theorem updateProject_found (pid : String) (body : UpdateBody) (persisted : List Project)
    (g : Nat) (now : String) (i : Nat) (stored2 : Project)
    (hfidx : (loadProjects persisted g).1.findIdx? (fun p => p.pid == pid) = some i)
    (hget : (loadProjects persisted g).1[i]? = some stored2) :
    updateProject pid body persisted g now =
      { status := 200,
        savedProjects := some ((loadProjects persisted g).1.set i
          { pid := stored2.pid,
            name := match body.bname with
              | some n => if n == "" then stored2.name else n
              | none => stored2.name,
            details := (body.bdetails).getD stored2.details,
            records := (ensureAndSortRecords ((body.brecords).getD stored2.records)
              (loadProjects persisted g).2).1,
            createdAt := stored2.createdAt, updatedAt := now }),
        responseProject := some
          { pid := stored2.pid,
            name := match body.bname with
              | some n => if n == "" then stored2.name else n
              | none => stored2.name,
            details := (body.bdetails).getD stored2.details,
            records := (ensureAndSortRecords ((body.brecords).getD stored2.records)
              (loadProjects persisted g).2).1,
            createdAt := stored2.createdAt, updatedAt := now } } := by
  simp only [updateProject, hfidx, hget]

/-- C10: a PUT request on an existing project whose body carries
`name: ""` succeeds with 200 and keeps the prior stored name: the
falsy empty string loses against the stored name in
`name || projects[projectIndex].name` (src/server.js:172), so it is
neither rejected as a validation error nor stored. -/
theorem put_empty_name_keeps_prior (persisted : List Project) (g : Nat)
    (now pid : String) (body : UpdateBody) (i : Nat) (stored : Project)
    (hname : body.bname = some "")
    (hidx : persisted.findIdx? (fun p => p.pid == pid) = some i)
    (hstored : persisted[i]? = some stored) :
    (updateProject pid body persisted g now).status = 200 ∧
    ((updateProject pid body persisted g now).responseProject).map (fun p => p.name) =
      some stored.name ∧
    (((updateProject pid body persisted g now).savedProjects).bind (fun l => l[i]?)).map
      (fun p => p.name) = some stored.name := by
  have hfidx : (loadProjects persisted g).1.findIdx? (fun p => p.pid == pid) = some i := by
    rw [loadProjects_findIdx]
    exact hidx
  have hbound : i < (loadProjects persisted g).1.length :=
    (List.findIdx?_eq_some_iff_findIdx_eq.mp hfidx).1
  have hget : (loadProjects persisted g).1[i]? =
      some ((loadProjects persisted g).1.get ⟨i, hbound⟩) := by
    rw [List.getElem?_eq_getElem hbound]
    rfl
  have hname2 : ((loadProjects persisted g).1.get ⟨i, hbound⟩).name = stored.name := by
    have h := loadProjects_name persisted g i
    rw [hget, hstored] at h
    simpa using h
  rw [updateProject_found pid body persisted g now i _ hfidx hget, hname]
  refine ⟨rfl, ?_, ?_⟩
  · show some (((loadProjects persisted g).1.get ⟨i, hbound⟩).name) = some stored.name
    rw [hname2]
  · show (((loadProjects persisted g).1.set i _)[i]?).map (fun p => p.name) =
      some stored.name
    rw [List.getElem?_set_self hbound]
    show some (((loadProjects persisted g).1.get ⟨i, hbound⟩).name) = some stored.name
    rw [hname2]

/-- C10 (witness): PUT with `name: ""` on the stored project "Kitchen"
answers 200 and both the response and the saved collection keep the
name "Kitchen". -/
theorem put_empty_name_witness :
    (updateProject "p1" ⟨some "", none, none⟩
        [⟨"p1", "Kitchen", "", [], "t0", "t0"⟩] 0 "t1").status = 200 ∧
    ((updateProject "p1" ⟨some "", none, none⟩
        [⟨"p1", "Kitchen", "", [], "t0", "t0"⟩] 0 "t1").responseProject).map
      (fun p => p.name) = some "Kitchen" ∧
    (((updateProject "p1" ⟨some "", none, none⟩
        [⟨"p1", "Kitchen", "", [], "t0", "t0"⟩] 0 "t1").savedProjects).bind
      (fun l => l[0]?)).map (fun p => p.name) = some "Kitchen" :=
  put_empty_name_keeps_prior [⟨"p1", "Kitchen", "", [], "t0", "t0"⟩] 0 "t1" "p1"
    ⟨some "", none, none⟩ 0 ⟨"p1", "Kitchen", "", [], "t0", "t0"⟩ rfl (by rfl) (by rfl)

/-- C6: POST /api/projects/:id/save does NOT keep `id` and `createdAt`
immutable: because the handler merges with
`{...stored, ...projectData, ...}` (src/server.js:216-218), a
`projectData` carrying `id` or `createdAt` overwrites the stored
values.  Saving `projectData = {id: "evil", createdAt: "1999"}` onto
the stored project `{id: "p1", createdAt: "t0"}` answers 200 and both
the saved collection and the response carry `id = "evil"` and
`createdAt = "1999"`. -/
theorem save_overwrites_immutable_fields :
    ((saveProject "p1"
        (some ⟨some "evil", none, none, none, some "1999", none⟩)
        [⟨"p1", "N", "", [], "t0", "t0"⟩] 0 "now").status = 200) ∧
    ((((saveProject "p1"
        (some ⟨some "evil", none, none, none, some "1999", none⟩)
        [⟨"p1", "N", "", [], "t0", "t0"⟩] 0 "now").savedProjects).bind
      (fun l => l[0]?)).map (fun p => (p.pid, p.createdAt)) = some ("evil", "1999")) ∧
    (((saveProject "p1"
        (some ⟨some "evil", none, none, none, some "1999", none⟩)
        [⟨"p1", "N", "", [], "t0", "t0"⟩] 0 "now").responseProject).map
      (fun p => (p.pid, p.createdAt)) = some ("evil", "1999")) := by
  have hload : loadProjects [⟨"p1", "N", "", [], "t0", "t0"⟩] 0 =
      ([⟨"p1", "N", "", [], "t0", "t0"⟩], 0) := by
    simp only [loadProjects, ensure_nil]
  have hf : List.findIdx? (fun p : Project => p.pid == "p1")
      [(⟨"p1", "N", "", [], "t0", "t0"⟩ : Project)] = some 0 := rfl
  have hget0 : [(⟨"p1", "N", "", [], "t0", "t0"⟩ : Project)][0]? =
      some ⟨"p1", "N", "", [], "t0", "t0"⟩ := rfl
  refine ⟨?_, ?_, ?_⟩ <;>
    simp only [saveProject, hload, hf, hget0, spreadData,
      Option.getD_none, Option.getD_some, ensure_nil] <;>
    rfl

/-- C8 (counterexample): the claim that every successful creation
stores a non-empty name fails for the whitespace-only name " ": it
passes the `!name` check (a non-empty string is truthy), is answered
201, and the created project's stored name is `" ".trim() = ""`, the
empty string. -/
theorem create_validation_claim_cex :
    ¬ (∀ (body : CreateBody) (persisted : List Project) (g : Nat) (now : String),
        ((createProject body persisted g now).status = 400 ↔ nameFalsy body.bname = true) ∧
        ((createProject body persisted g now).status = 201 →
          ∀ p : Project, (createProject body persisted g now).responseProject = some p →
            p.name = jsTrim ((body.bname).getD "") ∧ p.name ≠ "")) := by
  intro h
  have h2 := (h ⟨some " ", none, none⟩ [] 0 "now").2
  have hst : (createProject ⟨some " ", none, none⟩ [] 0 "now").status = 201 := by
    unfold createProject
    rw [if_neg (by decide)]
  have hresp : ∃ p, (createProject ⟨some " ", none, none⟩ [] 0 "now").responseProject =
      some p ∧ p.name = jsTrim " " := by
    unfold createProject
    rw [if_neg (by decide)]
    exact ⟨_, rfl, rfl⟩
  obtain ⟨p, hp, hpn⟩ := hresp
  have h3 := h2 hst p hp
  have hempty : p.name = "" := by
    rw [hpn]
    decide
  exact absurd hempty h3.2

/-- C8 (amended): POST /api/projects responds 400 exactly when the
request's name is missing or the empty string; on every successful
creation (201) the created project is appended to the collection and
its stored name is the request's name with surrounding whitespace
trimmed — which is the empty string when the request's name was
whitespace-only. -/
theorem create_validation (body : CreateBody) (persisted : List Project)
    (g : Nat) (now : String) :
    ((createProject body persisted g now).status = 400 ↔ nameFalsy body.bname = true) ∧
    (nameFalsy body.bname = false →
      (createProject body persisted g now).status = 201 ∧
      ∃ newP : Project,
        (createProject body persisted g now).responseProject = some newP ∧
        (createProject body persisted g now).savedProjects =
          some ((loadProjects persisted g).1 ++ [newP]) ∧
        newP.name = jsTrim ((body.bname).getD "")) := by
  by_cases h : nameFalsy body.bname = true
  · have hst : (createProject body persisted g now).status = 400 := by
      unfold createProject
      rw [if_pos h]
    constructor
    · rw [hst, h]
      simp
    · intro hf
      rw [h] at hf
      exact absurd hf (by decide)
  · have hst : (createProject body persisted g now).status = 201 := by
      unfold createProject
      rw [if_neg h]
    constructor
    · rw [hst, Bool.eq_false_iff.mpr h]
      simp
    · intro _
      refine ⟨hst,
        ⟨{ pid := (genId (ensureAndSortRecords ((body.brecords).getD [])
              (loadProjects persisted g).2).2).1,
           name := jsTrim ((body.bname).getD ""),
           details := (body.bdetails).getD "",
           records := (ensureAndSortRecords ((body.brecords).getD [])
              (loadProjects persisted g).2).1,
           createdAt := now, updatedAt := now }, ?_, ?_, rfl⟩⟩
      · unfold createProject
        rw [if_neg h]
      · unfold createProject
        rw [if_neg h]

/-- C8 (witness): creating with name " kitchen " is answered 201 and
the stored name is the trimmed "kitchen"; creating without a name is
answered 400. -/
theorem create_validation_witness :
    ((createProject ⟨some " kitchen ", none, none⟩ [] 0 "t").status = 201 ∧
      ∃ newP : Project,
        (createProject ⟨some " kitchen ", none, none⟩ [] 0 "t").responseProject =
          some newP ∧ newP.name = "kitchen") ∧
    ((createProject ⟨none, none, none⟩ [] 0 "t").status = 400) := by
  constructor
  · have h := (create_validation ⟨some " kitchen ", none, none⟩ [] 0 "t").2 (by decide)
    obtain ⟨hst, newP, hresp, hsave, hname⟩ := h
    refine ⟨hst, ⟨newP, hresp, ?_⟩⟩
    rw [hname]
    decide
  · exact ((create_validation ⟨none, none, none⟩ [] 0 "t").1).mpr (by decide)

/-- C3 (witness): with the (admissible) length collation, the two
records with ids "a" and "bb" come out strictly ordered: "a" strictly
precedes "bb". -/
theorem ordering_collation_witness :
    (ensureAndSortRecordsLC lenLE
        [MSRecord.mk (some "bb") none none "p",
         MSRecord.mk (some "a") none none "q"] 0).1.Pairwise
      (fun a b => lenLE (idKey a) (idKey b) ∧ ¬ lenLE (idKey b) (idKey a)) := by
  have h1 : processTopLC lenLE (MSRecord.mk (some "bb") none none "p") 0 =
      (MSRecord.mk (some "bb") none none "p", 0) := by
    rw [processTopLC_none]
    rfl
  have h2 : processTopLC lenLE (MSRecord.mk (some "a") none none "q") 0 =
      (MSRecord.mk (some "a") none none "q", 0) := by
    rw [processTopLC_none]
    rfl
  have hTL : processTopListLC lenLE
      [MSRecord.mk (some "bb") none none "p",
       MSRecord.mk (some "a") none none "q"] 0 =
      ([MSRecord.mk (some "bb") none none "p",
        MSRecord.mk (some "a") none none "q"], 0) := by
    rw [processTopListLC_cons, h1]
    show (MSRecord.mk (some "bb") none none "p" ::
        (processTopListLC lenLE [MSRecord.mk (some "a") none none "q"] 0).1,
      (processTopListLC lenLE [MSRecord.mk (some "a") none none "q"] 0).2) = _
    rw [processTopListLC_cons, h2]
    show (MSRecord.mk (some "bb") none none "p" ::
        MSRecord.mk (some "a") none none "q" ::
        (processTopListLC lenLE [] 0).1,
      (processTopListLC lenLE [] 0).2) = _
    rw [processTopListLC_nil]
  have hperm : (ensureAndSortRecordsLC lenLE
      [MSRecord.mk (some "bb") none none "p",
       MSRecord.mk (some "a") none none "q"] 0).1.Perm
      [MSRecord.mk (some "bb") none none "p",
       MSRecord.mk (some "a") none none "q"] := by
    rw [ensureAndSortRecordsLC_eq, hTL]
    exact List.perm_insertionSort _ _
  have hne : (ensureAndSortRecordsLC lenLE
      [MSRecord.mk (some "bb") none none "p",
       MSRecord.mk (some "a") none none "q"] 0).1.Pairwise
      (fun a b => ¬ (lenLE (idKey a) (idKey b) ∧ lenLE (idKey b) (idKey a))) := by
    rw [List.Perm.pairwise_iff (fun h hc => h ⟨hc.2, hc.1⟩) hperm]
    refine List.Pairwise.cons ?_ (List.pairwise_singleton _ _)
    intro b hb
    rw [List.mem_singleton] at hb
    subst hb
    decide
  exact (ensureAndSortRecords_sorted_collation lenLE
    (fun s t => Nat.le_total s.length t.length)
    (fun a b c ha hb => Nat.le_trans ha hb)
    [MSRecord.mk (some "bb") none none "p",
     MSRecord.mk (some "a") none none "q"] 0).2.2 hne
